import Mathlib

/-!
Verification development for the Ironbeard MCP filesystem server.

The core of the program is `src/security.rs`: a sandbox of allowed root
directories and a family of path-validation functions
(`validate_path`, `validate_path_exists`, `validate_file`,
`validate_directory`, `validate_creatable_path`).  We shallowly embed the
path data model (raw caller paths, the Rust component decomposition, the
OS-level canonicalization with symlink resolution including the POSIX
rule that a trailing separator forces the target to resolve to a
directory) and the validation functions, plus the bounded traversal
helpers (`build_tree_sync` in `src/tools/info.rs`, `list_directory` in
`src/tools/list.rs`, `search_files` in `src/tools/search.rs`) and the
in-memory edit loop of `edit_file` in `src/tools/write.rs`.
-/

namespace Ironbeard

/-- A path component as produced by a component iterator:
current directory, parent directory, or a normal named segment. -/
inductive Comp where
  | cur : Comp
  | par : Comp
  | normal : String → Comp
deriving DecidableEq, Repr

/-- A raw caller-supplied path: whether it is absolute, plus the
slash-separated raw text segments in order.  A segment may be empty
(doubled or trailing separator), a literal dot, or a literal dot-dot;
for example the string path written slash ws slash link slash is
`⟨true, ["ws", "link", ""]⟩` (the trailing empty segment records the
trailing separator). -/
structure Raw where
  absolute : Bool
  segs : List String
deriving DecidableEq, Repr

/-- A canonical absolute path: the list of names from the filesystem root. -/
abbrev AbsPath := List String

/-- A filesystem node: a regular file (with its size in bytes), a
directory with named children, or a symbolic link holding a raw target
path. -/
inductive Node where
  | file : Nat → Node
  | dir : List (String × Node) → Node
  | symlink : Raw → Node
deriving Repr

/-- A filesystem is the list of named children of the root directory. -/
abbrev Fs := List (String × Node)

/-- Find the child with the given name in a directory entry list. -/
def childNamed : List (String × Node) → String → Option Node
  | [], _ => none
  | (n, node) :: rest, s => if n = s then some node else childNamed rest s

/-- Pure tree walk (no symlink traversal): follow the given names from
`node` down through directory children. -/
def lookupIn : Node → List String → Option Node
  | node, [] => some node
  | node, s :: rest =>
    match node with
    | .dir es =>
      match childNamed es s with
      | some child => lookupIn child rest
      | none => none
    | _ => none

/-- Look a canonical absolute path up in the filesystem tree. -/
def lookup (fs : Fs) (p : AbsPath) : Option Node :=
  lookupIn (.dir fs) p

/-- The component sequence the operating system resolves for a raw path:
empty segments vanish, a dot is a stay-here step, dot-dot goes up, and
everything else is a named step.  (Unlike the Rust component iterator,
the OS does see interior dot segments; they force the preceding part to
resolve to a directory.) -/
def osComps (r : Raw) : List Comp :=
  r.segs.filterMap fun s =>
    if s == "" then none
    else if s == "." then some .cur
    else if s == ".." then some .par
    else some (.normal s)

/-- Whether the raw path ends in a separator (trailing empty segment).
POSIX pathname resolution then requires the final target to be a
directory (otherwise resolution fails with a not-a-directory error). -/
def dirRequired (r : Raw) : Bool :=
  match r.segs.getLast? with
  | some s => s == ""
  | none => false

/-- OS pathname resolution: walk the components from `base`, following
directory children, applying dot-dot at the resolved path (POSIX), and
dereferencing symbolic links (with `fuel` bounding link-chain length,
modelling the ELOOP limit).  Entering past a regular file fails;
a named final component resolves to the fully dereferenced target. -/
def resolve (fs : Fs) : Nat → AbsPath → List Comp → Option AbsPath
  | _, base, [] => some base
  | fuel, base, .cur :: rest => resolve fs fuel base rest
  | fuel, base, .par :: rest => resolve fs fuel base.dropLast rest
  | fuel, base, .normal s :: rest =>
    match lookup fs (base ++ [s]) with
    | none => none
    | some (.file _) => if rest.isEmpty then some (base ++ [s]) else none
    | some (.dir _) => resolve fs fuel (base ++ [s]) rest
    | some (.symlink t) =>
      match fuel with
      | 0 => none
      | fuel' + 1 =>
        match resolve fs fuel' (if t.absolute then [] else base) (osComps t) with
        | none => none
        | some c =>
          if rest.isEmpty then some c
          else
            match lookup fs c with
            | some (.dir _) => resolve fs fuel' c rest
            | _ => none
termination_by fuel _ comps => (fuel, comps.length)

/-- Symlink chain budget used by the canonicalization entry points. -/
def FUEL : Nat := 64

/-- OS canonicalization of a component path against a current working
directory: fails for the empty relative path, resolves the components,
and enforces the trailing-separator directory requirement on success. -/
def canonComps (fs : Fs) (cwd : AbsPath) (absolute : Bool) (comps : List Comp)
    (dirReq : Bool) : Option AbsPath :=
  if !absolute && comps.isEmpty then none
  else
    match resolve fs FUEL (if absolute then [] else cwd) comps with
    | none => none
    | some c =>
      if dirReq then
        match lookup fs c with
        | some (.dir _) => some c
        | _ => none
      else some c

/-- Model of Rust `std::fs::canonicalize` (realpath) on a raw path. -/
def canonRaw (fs : Fs) (cwd : AbsPath) (r : Raw) : Option AbsPath :=
  canonComps fs cwd r.absolute (osComps r) (dirRequired r)

/-- Model of Rust `Path::exists`: stat succeeds, following symlinks. -/
def rawExists (fs : Fs) (cwd : AbsPath) (r : Raw) : Bool :=
  (canonRaw fs cwd r).isSome

/-- The component sequence of Rust `Path::components()`: empty segments
vanish, interior dot segments are normalized away (a leading dot of a
relative path is kept as a current-directory component), dot-dot is
kept. -/
def rustComps (r : Raw) : List Comp :=
  let keep : String → Option Comp := fun s =>
    if s == "" then none
    else if s == "." then none
    else if s == ".." then some .par
    else some (.normal s)
  match r.absolute, r.segs with
  | false, s :: rest =>
    if s == "." then .cur :: rest.filterMap keep
    else (s :: rest).filterMap keep
  | _, segs => segs.filterMap keep

/-- A raw segment that the Rust component iterator drops: empty or dot. -/
def junkSeg (s : String) : Bool := s == "" || s == "."

/-- Trim the raw segments the Rust component iterator ignores at the end
of a path (trailing separators and trailing dot segments), keeping a
leading dot of a relative path, which is a real current-directory
component. -/
def rtrimSegs (absolute : Bool) (segs : List String) : List String :=
  let t := (segs.reverse.dropWhile junkSeg).reverse
  if t.isEmpty then
    if !absolute && (match segs.head? with | some s => s == "." | none => false) then
      ["."]
    else []
  else t

/-- Model of Rust `Path::parent`: the path without its final component
(the component decomposition ignores trailing separators and dots);
`none` when there is no component (the root, or the empty relative
path). -/
def rawParent (r : Raw) : Option Raw :=
  let t := rtrimSegs r.absolute r.segs
  if t.isEmpty then none
  else some { absolute := r.absolute, segs := rtrimSegs r.absolute t.dropLast }

/-- Model of Rust `Path::file_name`: the final component when it is a
normal named segment, `none` when the path ends in dot-dot or has no
normal final component. -/
def rawFileName (r : Raw) : Option String :=
  match (rtrimSegs r.absolute r.segs).getLast? with
  | none => none
  | some s => if s == ".." || s == "." then none else some s

/-- View a canonical absolute path as a raw path (how the Rust code
re-uses a returned `PathBuf`). -/
def rawOfAbs (c : AbsPath) : Raw :=
  { absolute := true, segs := c }

/-- The typed rejections of the resolver (src/error.rs). -/
inductive FsError where
  | pathDenied : FsError
  | notFound : FsError
  | notAFile : FsError
  | notADirectory : FsError
  | editFailed : FsError
deriving DecidableEq, Repr

/-- The containment test of `SecurityContext`: some allowed directory is
a component-wise prefix of the canonical path (Rust `Path::starts_with`
compares whole components, never raw strings). -/
def containsPath (dirs : List AbsPath) (c : AbsPath) : Bool :=
  dirs.any fun d => List.isPrefixOf d c

/-- Model of `SecurityContext::validate_path` (src/security.rs lines
16-45): canonicalize the path; if that fails, canonicalize the parent
and re-append the original final segment; then check containment. -/
def validatePath (dirs : List AbsPath) (fs : Fs) (cwd : AbsPath) (p : Raw) :
    Except FsError AbsPath :=
  let canonical? : Except FsError AbsPath :=
    match canonRaw fs cwd p with
    | some c => .ok c
    | none =>
      match rawParent p with
      | none => .error .pathDenied
      | some par =>
        match rawFileName p with
        | none => .error .pathDenied
        | some name =>
          match canonRaw fs cwd par with
          | none => .error .notFound
          | some cp => .ok (cp ++ [name])
  match canonical? with
  | .error e => .error e
  | .ok canonical =>
    if containsPath dirs canonical then .ok canonical else .error .pathDenied

/-- Stat of a returned canonical path (absolute, so the working
directory is irrelevant). -/
def existsAbs (fs : Fs) (c : AbsPath) : Bool :=
  (canonRaw fs [] (rawOfAbs c)).isSome

/-- Model of Rust `Path::is_file` on a returned canonical path
(metadata follows symlinks). -/
def isFileAbs (fs : Fs) (c : AbsPath) : Bool :=
  match canonRaw fs [] (rawOfAbs c) with
  | some c2 =>
    match lookup fs c2 with
    | some (.file _) => true
    | _ => false
  | none => false

/-- Model of Rust `Path::is_dir` on a returned canonical path. -/
def isDirAbs (fs : Fs) (c : AbsPath) : Bool :=
  match canonRaw fs [] (rawOfAbs c) with
  | some c2 =>
    match lookup fs c2 with
    | some (.dir _) => true
    | _ => false
  | none => false

/-- Model of `SecurityContext::validate_path_exists` (lines 48-57). -/
def validatePathExists (dirs : List AbsPath) (fs : Fs) (cwd : AbsPath) (p : Raw) :
    Except FsError AbsPath :=
  match validatePath dirs fs cwd p with
  | .error e => .error e
  | .ok c => if existsAbs fs c then .ok c else .error .notFound

/-- Model of `SecurityContext::validate_file` (lines 60-69). -/
def validateFile (dirs : List AbsPath) (fs : Fs) (cwd : AbsPath) (p : Raw) :
    Except FsError AbsPath :=
  match validatePathExists dirs fs cwd p with
  | .error e => .error e
  | .ok c => if isFileAbs fs c then .ok c else .error .notAFile

/-- Model of `SecurityContext::validate_directory` (lines 139-148). -/
def validateDirectory (dirs : List AbsPath) (fs : Fs) (cwd : AbsPath) (p : Raw) :
    Except FsError AbsPath :=
  match validatePathExists dirs fs cwd p with
  | .error e => .error e
  | .ok c => if isDirAbs fs c then .ok c else .error .notADirectory

theorem length_dropWhile_le (p : String → Bool) :
    ∀ l : List String, (l.dropWhile p).length ≤ l.length
  | [] => le_refl _
  | x :: xs => by
    rw [List.dropWhile]
    split
    · exact le_trans (length_dropWhile_le p xs) (by simp)
    · simp

theorem rtrimSegs_length_le (a : Bool) (l : List String) :
    (rtrimSegs a l).length ≤ l.length := by
  have hdw : (l.reverse.dropWhile junkSeg).length ≤ l.length := by
    calc (l.reverse.dropWhile junkSeg).length
        ≤ l.reverse.length := length_dropWhile_le _ _
      _ = l.length := by simp
  unfold rtrimSegs
  simp only []
  split
  · split
    · cases l with
      | nil => simp_all
      | cons x xs => simp
    · simp
  · simpa using hdw

/-- The upward walk of `validate_creatable_path` (lines 89-116): peel
the final component off until an existing ancestor is found, then
canonicalize it; returns the canonical ancestor and the peeled tail
(deepest segment first, as the Rust vector pushes them). -/
def ancWalk (fs : Fs) (cwd : AbsPath) (existing : Raw) (tail : List String) :
    Except FsError (AbsPath × List String) :=
  if rawExists fs cwd existing then
    match canonRaw fs cwd existing with
    | none => .error .notFound
    | some base => .ok (base, tail)
  else
    match h : rawParent existing with
    | none => .error .notFound
    | some par =>
      match rawFileName existing with
      | none => .error .pathDenied
      | some seg => ancWalk fs cwd par (tail ++ [seg])
termination_by existing.segs.length
decreasing_by
  simp only [rawParent] at h
  rcases ht : rtrimSegs existing.absolute existing.segs with _ | ⟨s, t⟩
  · rw [ht] at h; simp at h
  · rw [ht] at h
    simp only [List.isEmpty_cons, Bool.false_eq_true, if_false, Option.some.injEq] at h
    have h1 : par.segs.length =
        (rtrimSegs existing.absolute (s :: t).dropLast).length := by
      rw [← h]
    have h2 : (rtrimSegs existing.absolute (s :: t).dropLast).length ≤
        (s :: t).dropLast.length := rtrimSegs_length_le _ _
    have h3 : (s :: t).dropLast.length < (s :: t).length := by
      simp
    have h4 : (s :: t).length ≤ existing.segs.length := by
      rw [← ht]; exact rtrimSegs_length_le _ _
    omega

/-- Model of `SecurityContext::validate_creatable_path` (lines 76-136):
reject dot and dot-dot components up front, walk up to the nearest
existing ancestor, canonicalize and contain-check it, then re-append the
peeled tail segments in their original order. -/
def validateCreatable (dirs : List AbsPath) (fs : Fs) (cwd : AbsPath) (p : Raw) :
    Except FsError AbsPath :=
  if (rustComps p).any (fun c => match c with | .cur => true | .par => true | .normal _ => false) then
    .error .pathDenied
  else
    match ancWalk fs cwd p [] with
    | .error e => .error e
    | .ok (base, tailSegs) =>
      if containsPath dirs base then
        .ok (base ++ tailSegs.reverse)
      else .error .pathDenied

/-! ### Soundness of OS resolution

`resolve` only ever returns paths whose every proper prefix is a real
(non-symlink) directory and whose final node exists and is not a
symlink; such paths re-resolve to themselves.  These two facts drive the
idempotence and containment analysis of the validators. -/

/-- The node at `p` is a directory (pure tree walk). -/
def dirAt (fs : Fs) (p : AbsPath) : Bool :=
  match lookup fs p with
  | some (.dir _) => true
  | _ => false

/-- The node at `p` exists and is not a symlink. -/
def plainAt (fs : Fs) (p : AbsPath) : Bool :=
  match lookup fs p with
  | some (.file _) => true
  | some (.dir _) => true
  | _ => false

/-- Every prefix of `p` (including `p` itself) is a real directory. -/
def RealDir (fs : Fs) (p : AbsPath) : Prop :=
  ∀ k, k ≤ p.length → dirAt fs (p.take k) = true

/-- Every proper prefix of `p` is a real directory and the node at `p`
exists and is not a symlink. -/
def RealTo (fs : Fs) (p : AbsPath) : Prop :=
  (∀ k, k < p.length → dirAt fs (p.take k) = true) ∧ plainAt fs p = true

theorem realDir_nil (fs : Fs) : RealDir fs [] := by
  intro k hk
  have : k = 0 := Nat.le_zero.mp hk
  subst this
  rfl

theorem lookupIn_append (q : List String) :
    ∀ (p : List String) (node : Node),
      lookupIn node (p ++ q) = (lookupIn node p).bind fun m => lookupIn m q := by
  intro p
  induction p with
  | nil =>
    intro node
    rfl
  | cons s rest ih =>
    intro node
    cases node with
    | file sz => rfl
    | symlink t => rfl
    | dir es =>
      simp only [List.cons_append, lookupIn]
      cases childNamed es s with
      | none => simp
      | some child => simpa using ih child

theorem lookupIn_singleton (es : List (String × Node)) (s : String) :
    lookupIn (.dir es) [s] = childNamed es s := by
  simp only [lookupIn]
  cases childNamed es s <;> simp [lookupIn]

theorem lookup_snoc {fs : Fs} {p : AbsPath} {s : String} {n : Node}
    (h : lookup fs (p ++ [s]) = some n) :
    ∃ es, lookup fs p = some (.dir es) ∧ childNamed es s = some n := by
  unfold lookup at h ⊢
  rw [lookupIn_append] at h
  cases hp : lookupIn (.dir fs) p with
  | none => rw [hp] at h; simp at h
  | some m =>
    rw [hp] at h
    cases m with
    | file sz => exact Option.noConfusion h
    | symlink t => exact Option.noConfusion h
    | dir es =>
      have h2 : childNamed es s = some n := by
        rw [← lookupIn_singleton]
        exact h
      exact ⟨es, rfl, h2⟩

theorem realDir_snoc {fs : Fs} {base : AbsPath} {s : String}
    (hb : RealDir fs base) {es : List (String × Node)}
    (hl : lookup fs (base ++ [s]) = some (.dir es)) :
    RealDir fs (base ++ [s]) := by
  intro k hk
  simp only [List.length_append, List.length_cons, List.length_nil] at hk
  rcases Nat.lt_or_ge k (base.length + 1) with h1 | h1
  · have hk2 : k ≤ base.length := by omega
    rw [List.take_append_of_le_length hk2]
    simpa using hb k hk2
  · have hk2 : k = base.length + 1 := by omega
    subst hk2
    rw [List.take_of_length_le (by simp)]
    simp [dirAt, hl]

theorem realDir_dropLast {fs : Fs} {base : AbsPath} (hb : RealDir fs base) :
    RealDir fs base.dropLast := by
  intro k hk
  rw [List.dropLast_eq_take]
  rw [List.take_take]
  have : min k (base.length - 1) = k := by
    simp only [List.length_dropLast] at hk
    omega
  rw [this]
  exact hb k (by simp only [List.length_dropLast] at hk; omega)

theorem realTo_of_realDir {fs : Fs} {p : AbsPath} (h : RealDir fs p) :
    RealTo fs p := by
  refine ⟨fun k hk => h k (Nat.le_of_lt hk), ?_⟩
  have := h p.length (le_refl _)
  rw [List.take_length] at this
  unfold dirAt at this
  unfold plainAt
  cases hl : lookup fs p with
  | none => rw [hl] at this; simp at this
  | some n => cases n <;> rw [hl] at this <;> simp_all

theorem realDir_of_dir {fs : Fs} {p : AbsPath} (h : RealTo fs p)
    {es : List (String × Node)} (hl : lookup fs p = some (.dir es)) :
    RealDir fs p := by
  intro k hk
  rcases Nat.lt_or_ge k p.length with h1 | h1
  · exact h.1 k h1
  · have : k = p.length := by omega
    subst this
    rw [List.take_length]
    simp [dirAt, hl]

/-- Soundness of OS resolution: starting from a real directory, a
successful resolution lands on a path whose proper prefixes are real
directories and whose node exists and is not a symlink. -/
theorem realDir_ite (fs : Fs) (base : AbsPath) (b : Bool) (hb : RealDir fs base) :
    RealDir fs (if b then [] else base) := by
  cases b
  · simpa using hb
  · simpa using realDir_nil fs

theorem resolve_realTo (fs : Fs) :
    ∀ (fuel : Nat) (base : AbsPath) (comps : List Comp),
      ∀ c : AbsPath, RealDir fs base → resolve fs fuel base comps = some c → RealTo fs c := by
  intro fuel base comps
  induction fuel, base, comps using resolve.induct fs with
  | case1 fuel base =>
    intro c hb hr
    simp only [resolve, Option.some.injEq] at hr
    subst hr
    exact realTo_of_realDir hb
  | case2 fuel base rest ih =>
    intro c hb hr
    simp only [resolve] at hr
    exact ih c hb hr
  | case3 fuel base rest ih =>
    intro c hb hr
    simp only [resolve] at hr
    exact ih c (realDir_dropLast hb) hr
  | case4 fuel base s rest hl =>
    intro c hb hr
    simp only [resolve, hl] at hr
    cases hr
  | case5 fuel base s rest sz hl hemp =>
    intro c hb hr
    simp only [resolve, hl, hemp, if_true, Option.some.injEq] at hr
    subst hr
    refine ⟨?_, by simp [plainAt, hl]⟩
    intro k hk
    simp only [List.length_append, List.length_cons, List.length_nil] at hk
    have hk2 : k ≤ base.length := by omega
    rw [List.take_append_of_le_length hk2]
    exact hb k hk2
  | case6 fuel base s rest sz hl hemp =>
    intro c hb hr
    simp only [resolve, hl] at hr
    rw [if_neg hemp] at hr
    cases hr
  | case7 fuel base s rest es hl ih =>
    intro c hb hr
    simp only [resolve, hl] at hr
    exact ih c (realDir_snoc hb hl) hr
  | case8 base s rest t hl =>
    intro c hb hr
    simp only [resolve, hl] at hr
    cases hr
  | case9 base s rest t hl fuel' hinner ih =>
    intro c hb hr
    simp only [dite_eq_ite] at hinner
    simp only [resolve, hl] at hr
    rw [hinner] at hr
    cases hr
  | case10 base s rest t hl fuel' c0 hinner hemp ih =>
    intro c hb hr
    simp only [dite_eq_ite] at hinner ih
    simp only [resolve, hl] at hr
    simp only [hinner] at hr
    rw [if_pos hemp] at hr
    cases hr
    exact ih c0 (realDir_ite fs base t.absolute hb) hinner
  | case11 base s rest t hl fuel' c0 hinner hemp es hc ihinner ihcont =>
    intro c hb hr
    simp only [dite_eq_ite] at hinner ihinner
    have hc0 : RealTo fs c0 := ihinner c0 (realDir_ite fs base t.absolute hb) hinner
    simp only [resolve, hl] at hr
    simp only [hinner] at hr
    rw [if_neg hemp] at hr
    rw [hc] at hr
    exact ihcont c (realDir_of_dir hc0 hc) hr
  | case12 base s rest t hl fuel' c0 hinner hemp hnotdir ih =>
    intro c hb hr
    simp only [dite_eq_ite] at hinner
    simp only [resolve, hl] at hr
    simp only [hinner] at hr
    rw [if_neg hemp] at hr
    cases hcl : lookup fs c0 with
    | none => cases hr
    | some m =>
      cases m with
      | file sz => cases hr
      | symlink t2 => cases hr
      | dir es2 => exact absurd hcl (fun hx => hnotdir es2 hx)

theorem dirAt_dir {fs : Fs} {p : AbsPath} (h : dirAt fs p = true) :
    ∃ es, lookup fs p = some (.dir es) := by
  unfold dirAt at h
  cases hl : lookup fs p with
  | none => rw [hl] at h; cases h
  | some m =>
    cases m with
    | file sz => rw [hl] at h; cases h
    | symlink t => rw [hl] at h; cases h
    | dir es => exact ⟨es, rfl⟩

theorem plainAt_cases {fs : Fs} {p : AbsPath} (h : plainAt fs p = true) :
    (∃ sz, lookup fs p = some (.file sz)) ∨ ∃ es, lookup fs p = some (.dir es) := by
  unfold plainAt at h
  cases hl : lookup fs p with
  | none => rw [hl] at h; cases h
  | some m =>
    cases m with
    | file sz => exact Or.inl ⟨sz, rfl⟩
    | symlink t => rw [hl] at h; cases h
    | dir es => exact Or.inr ⟨es, rfl⟩

/-- Walking a run of named components through real directories just
appends them to the base. -/
theorem resolve_normals_append (fs : Fs) (fuel : Nat) :
    ∀ (names : List String) (base : AbsPath) (rest : List Comp),
      (∀ k, 1 ≤ k → k ≤ names.length → dirAt fs (base ++ names.take k) = true) →
      resolve fs fuel base (names.map Comp.normal ++ rest) =
        resolve fs fuel (base ++ names) rest := by
  intro names
  induction names with
  | nil =>
    intro base rest h
    simp
  | cons s ns ih =>
    intro base rest h
    have h1 : dirAt fs (base ++ [s]) = true := by
      have := h 1 (le_refl _) (by simp)
      simpa using this
    rcases dirAt_dir h1 with ⟨es, hes⟩
    simp only [List.map_cons, List.cons_append, resolve, hes]
    have hh : ∀ k, 1 ≤ k → k ≤ ns.length → dirAt fs ((base ++ [s]) ++ ns.take k) = true := by
      intro k hk1 hk2
      have := h (k + 1) (by omega) (by simp; omega)
      simpa [List.take_succ_cons, List.append_assoc] using this
    rw [ih (base ++ [s]) rest hh]
    simp

/-- A path whose proper prefixes are real directories and whose node is
a real (non-symlink) file or directory resolves to itself. -/
theorem resolve_self (fs : Fs) (fuel : Nat) (c : AbsPath) (h : RealTo fs c) :
    resolve fs fuel [] (c.map Comp.normal) = some c := by
  rcases plainAt_cases h.2 with ⟨sz, hf⟩ | ⟨es, hd⟩
  · have hne : c ≠ [] := by
      intro he
      rw [he] at hf
      cases hf
    obtain ⟨q, x, hqx⟩ : ∃ q x, c = q ++ [x] :=
      ⟨c.dropLast, c.getLast hne, (List.dropLast_append_getLast hne).symm⟩
    subst hqx
    have hq : ∀ k, 1 ≤ k → k ≤ q.length → dirAt fs ([] ++ q.take k) = true := by
      intro k h1 h2
      have := h.1 k (by simp; omega)
      simpa [List.take_append_of_le_length h2] using this
    have hra := resolve_normals_append fs fuel q [] [Comp.normal x] hq
    simp only [List.map_append, List.map_cons, List.map_nil]
    rw [hra]
    simp only [List.nil_append, resolve, hf]
    simp
  · have hrd : RealDir fs c := realDir_of_dir h hd
    have hq : ∀ k, 1 ≤ k → k ≤ c.length → dirAt fs ([] ++ c.take k) = true := by
      intro k h1 h2
      simpa using hrd k h2
    have hra := resolve_normals_append fs fuel c [] [] hq
    rw [List.append_nil] at hra
    rw [hra]
    simp [resolve]

/-! ### Well-formed filesystems

Real directory entries have names that are nonempty, are not dot or
dot-dot, and contain no separator; `wfEntries` states this recursively
for a whole tree. -/

/-- A string that can be a real directory-entry name. -/
def validSeg (s : String) : Bool :=
  !(s == "") && !(s == ".") && !(s == "..") && !(s.data.contains ('/'))

mutual

/-- All entry names in the tree below this node are valid. -/
def wfNode : Node → Bool
  | .file _ => true
  | .symlink _ => true
  | .dir es => wfEntries es

/-- All entry names in these entries (recursively) are valid. -/
def wfEntries : List (String × Node) → Bool
  | [] => true
  | (n, c) :: rest => validSeg n && wfNode c && wfEntries rest

end

theorem wf_childNamed {es : List (String × Node)} {s : String} {n : Node}
    (hwf : wfEntries es = true) (h : childNamed es s = some n) :
    validSeg s = true ∧ wfNode n = true := by
  induction es with
  | nil => cases h
  | cons e rest ih =>
    obtain ⟨nm, nd⟩ := e
    simp only [wfEntries, Bool.and_eq_true] at hwf
    simp only [childNamed] at h
    split at h
    · rename_i heq
      cases h
      subst heq
      exact ⟨hwf.1.1, hwf.1.2⟩
    · exact ih hwf.2 h

theorem lookupIn_validSegs :
    ∀ (p : List String) (node : Node) (n : Node), wfNode node = true →
      lookupIn node p = some n → ∀ s ∈ p, validSeg s = true := by
  intro p
  induction p with
  | nil =>
    intro node n _ _ s hs
    cases hs
  | cons s0 rest ih =>
    intro node n hwf h s hs
    cases node with
    | file sz => simp [lookupIn] at h
    | symlink t => simp [lookupIn] at h
    | dir es =>
      simp only [lookupIn] at h
      cases hcn : childNamed es s0 with
      | none => rw [hcn] at h; cases h
      | some child =>
        rw [hcn] at h
        have hwc := wf_childNamed (by simpa [wfNode] using hwf) hcn
        rcases List.mem_cons.mp hs with rfl | hmem
        · exact hwc.1
        · exact ih child n hwc.2 h s hmem

theorem lookup_validSegs {fs : Fs} (hwf : wfEntries fs = true) {p : AbsPath} {n : Node}
    (h : lookup fs p = some n) : ∀ s ∈ p, validSeg s = true :=
  lookupIn_validSegs p (.dir fs) n (by simpa [wfNode] using hwf) h

theorem validSeg_facts {s : String} (h : validSeg s = true) :
    (s == "") = false ∧ (s == ".") = false ∧ (s == "..") = false := by
  unfold validSeg at h
  simp only [Bool.and_eq_true, Bool.not_eq_true'] at h
  exact ⟨h.1.1.1, h.1.1.2, h.1.2⟩

theorem osComps_of_valid {c : AbsPath} (h : ∀ s ∈ c, validSeg s = true) :
    osComps (rawOfAbs c) = c.map Comp.normal := by
  unfold osComps rawOfAbs
  induction c with
  | nil => rfl
  | cons s rest ih =>
    have hs := validSeg_facts (h s (by simp))
    simp only [List.filterMap_cons, hs.1, hs.2.1, hs.2.2]
    simp only [Bool.false_eq_true, if_false, List.map_cons]
    congr 1
    simpa using ih (fun x hx => h x (by simp [hx]))

theorem dirRequired_of_valid {c : AbsPath} (h : ∀ s ∈ c, validSeg s = true) :
    dirRequired (rawOfAbs c) = false := by
  unfold dirRequired rawOfAbs
  cases hg : c.getLast? with
  | none => rfl
  | some s =>
    have hs := validSeg_facts (h s (List.mem_of_getLast?_eq_some hg))
    simp [hs.1]

/-- A canonical path returned by a successful resolution canonicalizes
back to itself (symlink-free, so no fuel is consumed). -/
theorem canonAbs_self {fs : Fs} {c : AbsPath} (hwf : wfEntries fs = true)
    (cwd : AbsPath) (h : RealTo fs c) :
    canonRaw fs cwd (rawOfAbs c) = some c := by
  have hn : ∃ n, lookup fs c = some n := by
    rcases plainAt_cases h.2 with ⟨sz, hf⟩ | ⟨es, hd⟩
    · exact ⟨_, hf⟩
    · exact ⟨_, hd⟩
  rcases hn with ⟨n, hn⟩
  have hvalid := lookup_validSegs hwf hn
  unfold canonRaw canonComps
  rw [osComps_of_valid hvalid, dirRequired_of_valid hvalid]
  simp only [rawOfAbs, Bool.not_true, Bool.false_and, Bool.false_eq_true, if_false, if_true]
  rw [resolve_self fs FUEL c h]

theorem canonComps_resolve {fs : Fs} {cwd : AbsPath} {absolute : Bool}
    {comps : List Comp} {dirReq : Bool} {c : AbsPath}
    (h : canonComps fs cwd absolute comps dirReq = some c) :
    resolve fs FUEL (if absolute then [] else cwd) comps = some c := by
  unfold canonComps at h
  split at h
  · cases h
  · cases hr : resolve fs FUEL (if absolute then [] else cwd) comps with
    | none => rw [hr] at h; cases h
    | some c0 =>
      simp only [hr] at h
      split at h
      · cases hl : lookup fs c0 with
        | none => simp only [hl] at h; cases h
        | some m =>
          cases m with
          | file sz => simp only [hl] at h; cases h
          | symlink t => simp only [hl] at h; cases h
          | dir es =>
            simp only [hl, Option.some.injEq] at h
            subst h
            rfl
      · cases h
        rfl

/-- Every successful canonicalization yields a symlink-free existing
path (relative resolution starts at the working directory, which is
assumed to be a real directory). -/
theorem canonRaw_realTo {fs : Fs} {cwd : AbsPath} {p : Raw} {c : AbsPath}
    (hcwd : RealDir fs cwd) (h : canonRaw fs cwd p = some c) : RealTo fs c := by
  unfold canonRaw at h
  have hr := canonComps_resolve h
  exact resolve_realTo fs FUEL _ _ c (realDir_ite fs cwd p.absolute hcwd) hr

theorem dropWhile_junk_head {l : List String} {x : String}
    (h : (l.dropWhile junkSeg).head? = some x) : junkSeg x = false := by
  induction l with
  | nil => cases h
  | cons y ys ih =>
    rw [List.dropWhile_cons] at h
    split at h
    · exact ih h
    · rename_i hy
      simp only [List.head?_cons, Option.some.injEq] at h
      subst h
      simpa using hy

theorem rtrimSegs_getLast_nonempty {a : Bool} {l : List String} {x : String}
    (h : (rtrimSegs a l).getLast? = some x) : (x == "") = false := by
  unfold rtrimSegs at h
  simp only [] at h
  split at h
  · split at h
    · simp only [List.getLast?_singleton, Option.some.injEq] at h
      subst h
      rfl
    · cases h
  · rw [List.getLast?_reverse] at h
    have := dropWhile_junk_head h
    unfold junkSeg at this
    simp only [Bool.or_eq_false_iff] at this
    exact this.1

theorem rawFileName_plain {r : Raw} {s : String} (h : rawFileName r = some s) :
    (s == "") = false ∧ (s == ".") = false ∧ (s == "..") = false := by
  unfold rawFileName at h
  cases hg : (rtrimSegs r.absolute r.segs).getLast? with
  | none => simp only [hg] at h; cases h
  | some x =>
    simp only [hg] at h
    by_cases hcond : (x == ".." || x == ".") = true
    · rw [if_pos hcond] at h
      cases h
    · rw [if_neg hcond] at h
      cases h
      simp only [Bool.or_eq_true, not_or] at hcond
      refine ⟨rtrimSegs_getLast_nonempty hg, ?_, ?_⟩
      · simpa using hcond.2
      · simpa using hcond.1

/-- Segment facts sufficient for the OS component decomposition. -/
def PlainSegs (c : AbsPath) : Prop :=
  ∀ s ∈ c, (s == "") = false ∧ (s == ".") = false ∧ (s == "..") = false

theorem osComps_of_plain {c : AbsPath} (h : PlainSegs c) :
    osComps (rawOfAbs c) = c.map Comp.normal := by
  unfold osComps rawOfAbs
  induction c with
  | nil => rfl
  | cons s rest ih =>
    have hs := h s (by simp)
    simp only [List.filterMap_cons, hs.1, hs.2.1, hs.2.2]
    simp only [Bool.false_eq_true, if_false, List.map_cons]
    congr 1
    simpa using ih (fun x hx => h x (by simp [hx]))

theorem dirRequired_of_plain {c : AbsPath} (h : PlainSegs c) :
    dirRequired (rawOfAbs c) = false := by
  unfold dirRequired rawOfAbs
  cases hg : c.getLast? with
  | none => rfl
  | some s =>
    have hs := h s (List.mem_of_getLast?_eq_some hg)
    simp [hs.1]

theorem plainSegs_of_valid {c : AbsPath} (h : ∀ s ∈ c, validSeg s = true) :
    PlainSegs c :=
  fun s hs => validSeg_facts (h s hs)

theorem plainSegs_snoc {c : AbsPath} {name : String} (hc : PlainSegs c)
    (hn : (name == "") = false ∧ (name == ".") = false ∧ (name == "..") = false) :
    PlainSegs (c ++ [name]) := by
  intro s hs
  rcases List.mem_append.mp hs with hmem | hmem
  · exact hc s hmem
  · have : s = name := by simpa using hmem
    subst this
    exact hn

theorem plainSegs_of_lookup {fs : Fs} (hwf : wfEntries fs = true) {p : AbsPath}
    {n : Node} (h : lookup fs p = some n) : PlainSegs p :=
  plainSegs_of_valid (lookup_validSegs hwf h)

theorem plainSegs_of_realTo {fs : Fs} (hwf : wfEntries fs = true) {p : AbsPath}
    (h : RealTo fs p) : PlainSegs p := by
  rcases plainAt_cases h.2 with ⟨sz, hf⟩ | ⟨es, hd⟩
  · exact plainSegs_of_lookup hwf hf
  · exact plainSegs_of_lookup hwf hd

/-- Resolving one more (plain) name below a symlink-free existing path
whose node is missing fails: the canonicalization of a non-existing
child of a real path is an error. -/
theorem canonAbs_none {fs : Fs} {cp : AbsPath} {name : String}
    (hwf : wfEntries fs = true) (hcp : RealTo fs cp)
    (hnone : lookup fs (cp ++ [name]) = none)
    (hname : (name == "") = false ∧ (name == ".") = false ∧ (name == "..") = false)
    (cwd : AbsPath) : canonRaw fs cwd (rawOfAbs (cp ++ [name])) = none := by
  have hplain : PlainSegs (cp ++ [name]) :=
    plainSegs_snoc (plainSegs_of_realTo hwf hcp) hname
  unfold canonRaw canonComps
  rw [osComps_of_plain hplain]
  simp only [rawOfAbs, Bool.not_true, Bool.false_and, Bool.false_eq_true, if_false, if_true]
  have hres : resolve fs FUEL [] ((cp ++ [name]).map Comp.normal) = none := by
    rcases plainAt_cases hcp.2 with ⟨sz, hf⟩ | ⟨es, hd⟩
    · have hne : cp ≠ [] := by
        intro he
        rw [he] at hf
        cases hf
      obtain ⟨q, x, hqx⟩ : ∃ q x, cp = q ++ [x] :=
        ⟨cp.dropLast, cp.getLast hne, (List.dropLast_append_getLast hne).symm⟩
      have hq : ∀ k, 1 ≤ k → k ≤ q.length → dirAt fs ([] ++ q.take k) = true := by
        intro k h1 h2
        have := hcp.1 k (by rw [hqx]; simp; omega)
        rw [hqx] at this
        simpa [List.take_append_of_le_length h2] using this
      rw [hqx]
      have hra := resolve_normals_append fs FUEL q [] [Comp.normal x, Comp.normal name] hq
      simp only [List.map_append, List.map_cons, List.map_nil, List.append_assoc,
        List.cons_append, List.nil_append] at hra ⊢
      rw [hra]
      rw [hqx] at hf
      simp [resolve, hf]
    · have hrd : RealDir fs cp := realDir_of_dir hcp hd
      have hq : ∀ k, 1 ≤ k → k ≤ cp.length → dirAt fs ([] ++ cp.take k) = true := by
        intro k h1 h2
        simpa using hrd k h2
      have hra := resolve_normals_append fs FUEL cp [] [Comp.normal name] hq
      simp only [List.map_append, List.map_cons, List.map_nil] at hra ⊢
      rw [hra]
      simp [resolve, hnone]
  rw [hres]

/-- The node at `c` (if any) is not a symbolic link. -/
def notSymlinkAt (fs : Fs) (c : AbsPath) : Bool :=
  match lookup fs c with
  | some (.symlink _) => false
  | _ => true

theorem dropWhile_nonjunk {l : List String} (h : ∀ s ∈ l, junkSeg s = false) :
    l.dropWhile junkSeg = l := by
  cases l with
  | nil => rfl
  | cons x xs =>
    rw [List.dropWhile_cons]
    simp [h x (by simp)]

theorem rtrimSegs_of_plain {l : List String} (h : PlainSegs l) (a : Bool) :
    rtrimSegs a l = l := by
  have hnj : ∀ s ∈ l.reverse, junkSeg s = false := by
    intro s hs
    have hf := h s (List.mem_reverse.mp hs)
    unfold junkSeg
    simp [hf.1, hf.2.1]
  unfold rtrimSegs
  simp only []
  rw [dropWhile_nonjunk hnj, List.reverse_reverse]
  cases l with
  | nil => simp
  | cons x xs => simp

theorem plainSegs_of_append_left {cp : AbsPath} {l : AbsPath}
    (h : PlainSegs (cp ++ l)) : PlainSegs cp :=
  fun s hs => h s (List.mem_append_left _ hs)

theorem rawParent_ofAbs_snoc {cp : AbsPath} {name : String}
    (h : PlainSegs (cp ++ [name])) :
    rawParent (rawOfAbs (cp ++ [name])) = some (rawOfAbs cp) := by
  unfold rawParent rawOfAbs
  simp only []
  rw [rtrimSegs_of_plain h]
  rw [if_neg (by simp)]
  rw [List.dropLast_concat]
  rw [rtrimSegs_of_plain (plainSegs_of_append_left h)]

theorem rawFileName_ofAbs_snoc {cp : AbsPath} {name : String}
    (h : PlainSegs (cp ++ [name])) :
    rawFileName (rawOfAbs (cp ++ [name])) = some name := by
  unfold rawFileName rawOfAbs
  simp only []
  rw [rtrimSegs_of_plain h]
  rw [List.getLast?_concat]
  have hn := h name (by simp)
  simp [hn.2.1, hn.2.2]

/-- A success of `validate_path` is either a direct canonicalization or
the parent-fallback reconstruction, and is always contained. -/
theorem validatePath_ok_cases {dirs : List AbsPath} {fs : Fs} {cwd : AbsPath}
    {p : Raw} {c : AbsPath} (h : validatePath dirs fs cwd p = .ok c) :
    containsPath dirs c = true ∧
      (canonRaw fs cwd p = some c ∨
        (canonRaw fs cwd p = none ∧ ∃ par name cp,
          rawParent p = some par ∧ rawFileName p = some name ∧
          canonRaw fs cwd par = some cp ∧ c = cp ++ [name])) := by
  unfold validatePath at h
  cases hc : canonRaw fs cwd p with
  | some c0 =>
    simp only [hc] at h
    by_cases hcont : containsPath dirs c0 = true
    · rw [if_pos hcont] at h
      cases h
      exact ⟨hcont, Or.inl rfl⟩
    · rw [if_neg (by simpa using hcont)] at h
      cases h
  | none =>
    simp only [hc] at h
    cases hp : rawParent p with
    | none => simp only [hp] at h; cases h
    | some par =>
      simp only [hp] at h
      cases hf : rawFileName p with
      | none => simp only [hf] at h; cases h
      | some name =>
        simp only [hf] at h
        cases hcp : canonRaw fs cwd par with
        | none => simp only [hcp] at h; cases h
        | some cp =>
          simp only [hcp] at h
          by_cases hcont : containsPath dirs (cp ++ [name]) = true
          · rw [if_pos hcont] at h
            cases h
            exact ⟨hcont, Or.inr ⟨rfl, par, name, cp, rfl, rfl, hcp, rfl⟩⟩
          · rw [if_neg (by simpa using hcont)] at h
            cases h

theorem realTo_snoc {fs : Fs} {cp : AbsPath} {name : String} {n : Node}
    (hcp : RealTo fs cp) (hl : lookup fs (cp ++ [name]) = some n)
    (hn : plainAt fs (cp ++ [name]) = true) : RealTo fs (cp ++ [name]) := by
  refine ⟨?_, hn⟩
  intro k hk
  simp only [List.length_append, List.length_cons, List.length_nil] at hk
  have hk2 : k ≤ cp.length := by omega
  rw [List.take_append_of_le_length hk2]
  rcases Nat.lt_or_ge k cp.length with h1 | h1
  · exact hcp.1 k h1
  · have : k = cp.length := by omega
    subst this
    rw [List.take_length]
    rcases lookup_snoc hl with ⟨es, hdir, _⟩
    simp [dirAt, hdir]

/-- Re-validating a returned canonical path succeeds with the same path
whenever the node it denotes (if any) is not a symbolic link. -/
theorem validatePath_idem {dirs : List AbsPath} {fs : Fs} {cwd : AbsPath}
    {p : Raw} {c : AbsPath}
    (hwf : wfEntries fs = true) (hcwd : RealDir fs cwd)
    (hok : validatePath dirs fs cwd p = .ok c)
    (hns : notSymlinkAt fs c = true) :
    validatePath dirs fs cwd (rawOfAbs c) = .ok c := by
  obtain ⟨hcont, hcase⟩ := validatePath_ok_cases hok
  rcases hcase with hc | ⟨hnone, par, name, cp, hpar, hname, hcp, rfl⟩
  · have hreal : RealTo fs c := canonRaw_realTo hcwd hc
    have hself := canonAbs_self hwf cwd hreal
    unfold validatePath
    simp only [hself, hcont, if_true]
  · have hrealcp : RealTo fs cp := canonRaw_realTo hcwd hcp
    have hnamep := rawFileName_plain hname
    have hplain : PlainSegs (cp ++ [name]) :=
      plainSegs_snoc (plainSegs_of_realTo hwf hrealcp) hnamep
    cases hl : lookup fs (cp ++ [name]) with
    | none =>
      have hcn := canonAbs_none hwf hrealcp hl hnamep cwd
      have hcpself := canonAbs_self hwf cwd hrealcp
      unfold validatePath
      simp only [hcn]
      rw [rawParent_ofAbs_snoc hplain, rawFileName_ofAbs_snoc hplain]
      simp only [hcpself, hcont, if_true]
    | some n =>
      cases n with
      | symlink t =>
        exfalso
        unfold notSymlinkAt at hns
        rw [hl] at hns
        cases hns
      | file sz =>
        have hreal : RealTo fs (cp ++ [name]) :=
          realTo_snoc hrealcp hl (by simp [plainAt, hl])
        have hself := canonAbs_self hwf cwd hreal
        unfold validatePath
        simp only [hself, hcont, if_true]
      | dir es =>
        have hreal : RealTo fs (cp ++ [name]) :=
          realTo_snoc hrealcp hl (by simp [plainAt, hl])
        have hself := canonAbs_self hwf cwd hreal
        unfold validatePath
        simp only [hself, hcont, if_true]

/-- The same raw path written with a trailing separator. -/
def addSlash (p : Raw) : Raw :=
  { absolute := p.absolute, segs := p.segs ++ [""] }

/-- The chain of a raw path and its successive parents, ending when
`parent` yields nothing. -/
def parentChain (r : Raw) : List Raw :=
  r :: (match h : rawParent r with
        | none => []
        | some par => parentChain par)
termination_by r.segs.length
decreasing_by
  simp only [rawParent] at h
  rcases ht : rtrimSegs r.absolute r.segs with _ | ⟨s, t⟩
  · rw [ht] at h; simp at h
  · rw [ht] at h
    simp only [List.isEmpty_cons, Bool.false_eq_true, if_false, Option.some.injEq] at h
    have h1 : par.segs.length =
        (rtrimSegs r.absolute (s :: t).dropLast).length := by
      rw [← h]
    have h2 : (rtrimSegs r.absolute (s :: t).dropLast).length ≤
        (s :: t).dropLast.length := rtrimSegs_length_le _ _
    have h3 : (s :: t).dropLast.length < (s :: t).length := by
      simp
    have h4 : (s :: t).length ≤ r.segs.length := by
      rw [← ht]; exact rtrimSegs_length_le _ _
    omega

/-- The raw segments that are actual names (the non-junk segments). -/
def rawNames (r : Raw) : List String :=
  r.segs.filter fun s => !junkSeg s

/-! ### Bounded directory tree renderer (src/tools/info.rs) -/

/-- Entry ceiling of the tree renderer (`MAX_TREE_ENTRIES`). -/
def MAX_TREE_ENTRIES : Nat := 1000

/-- One output line of the tree renderer: a directory entry line, a file
entry line (with size), or the truncation notice.  Each carries the
indentation text and the is-last connector choice, mirroring the
formatted strings of `build_tree_sync`. -/
inductive TLine where
  | dirLine : String → Bool → String → TLine
  | fileLine : String → Bool → String → Nat → TLine
  | truncLine : String → TLine
deriving DecidableEq, Repr

/-- Stable insertion into a list sorted by a string key (model of the
stable sorts used by the Rust code). -/
def insertByName {α : Type} (key : α → String) (a : α) : List α → List α
  | [] => [a]
  | x :: xs => if key a ≤ key x then a :: x :: xs else x :: insertByName key a xs

/-- Stable sort by a string key. -/
def sortByName {α : Type} (key : α → String) : List α → List α
  | [] => []
  | x :: xs => insertByName key x (sortByName key xs)

/-- The subdirectory entries collected by one level of the tree walk:
non-hidden directory children (symlink children are neither files nor
directories under a no-follow metadata call and are skipped). -/
def treeDirs (es : List (String × Node)) : List (String × List (String × Node)) :=
  es.filterMap fun e =>
    match e with
    | (n, .dir cs) => if String.startsWith n (".") then none else some (n, cs)
    | _ => none

/-- The file entries collected by one level of the tree walk. -/
def treeFiles (es : List (String × Node)) : List (String × Nat) :=
  es.filterMap fun e =>
    match e with
    | (n, .file sz) => if String.startsWith n (".") then none else some (n, sz)
    | _ => none

/-- The bounded loop over file entries of one directory level. -/
def filesLoop (fls : List (String × Nat)) (index total : Nat) (pfx : String)
    (count : Nat) : List TLine × Nat :=
  match fls with
  | [] => ([], count)
  | (name, sz) :: rest =>
    if MAX_TREE_ENTRIES < count + 1 then ([.truncLine pfx], count + 1)
    else
      (.fileLine pfx (decide (index = total - 1)) name sz ::
        (filesLoop rest (index + 1) total pfx (count + 1)).1,
       (filesLoop rest (index + 1) total pfx (count + 1)).2)

mutual

/-- Model of `build_tree_sync`: collect non-hidden directory and file
children, sort each group by name, then emit directory entries (with
depth-bounded recursion) followed by file entries, threading the entry
counter and stopping with a single truncation notice once the ceiling is
exceeded. -/
def buildTree (maxDepth : Nat) (es : List (String × Node)) (pfx : String)
    (depth : Nat) (count : Nat) : List TLine × Nat :=
  if (sortByName Prod.fst (treeDirs es)).length +
      (sortByName Prod.fst (treeFiles es)).length = 0 then ([], count)
  else
    if MAX_TREE_ENTRIES < (dirsLoop maxDepth (sortByName Prod.fst (treeDirs es)) 0
        ((sortByName Prod.fst (treeDirs es)).length +
          (sortByName Prod.fst (treeFiles es)).length) pfx depth count).2 then
      dirsLoop maxDepth (sortByName Prod.fst (treeDirs es)) 0
        ((sortByName Prod.fst (treeDirs es)).length +
          (sortByName Prod.fst (treeFiles es)).length) pfx depth count
    else
      ((dirsLoop maxDepth (sortByName Prod.fst (treeDirs es)) 0
          ((sortByName Prod.fst (treeDirs es)).length +
            (sortByName Prod.fst (treeFiles es)).length) pfx depth count).1 ++
        (filesLoop (sortByName Prod.fst (treeFiles es))
          (sortByName Prod.fst (treeDirs es)).length
          ((sortByName Prod.fst (treeDirs es)).length +
            (sortByName Prod.fst (treeFiles es)).length) pfx
          (dirsLoop maxDepth (sortByName Prod.fst (treeDirs es)) 0
            ((sortByName Prod.fst (treeDirs es)).length +
              (sortByName Prod.fst (treeFiles es)).length) pfx depth count).2).1,
       (filesLoop (sortByName Prod.fst (treeFiles es))
          (sortByName Prod.fst (treeDirs es)).length
          ((sortByName Prod.fst (treeDirs es)).length +
            (sortByName Prod.fst (treeFiles es)).length) pfx
          (dirsLoop maxDepth (sortByName Prod.fst (treeDirs es)) 0
            ((sortByName Prod.fst (treeDirs es)).length +
              (sortByName Prod.fst (treeFiles es)).length) pfx depth count).2).2)
termination_by (maxDepth - depth, 1, 0)

/-- The bounded loop over the sorted subdirectory entries of one level,
recursing one level deeper while the depth bound allows. -/
def dirsLoop (maxDepth : Nat) (ds : List (String × List (String × Node)))
    (index total : Nat) (pfx : String) (depth : Nat) (count : Nat) :
    List TLine × Nat :=
  match ds with
  | [] => ([], count)
  | (name, children) :: rest =>
    if MAX_TREE_ENTRIES < count + 1 then ([.truncLine pfx], count + 1)
    else
      if h : depth < maxDepth then
        if MAX_TREE_ENTRIES < (buildTree maxDepth children
            (pfx ++ (if decide (index = total - 1) then "    " else "│   "))
            (depth + 1) (count + 1)).2 then
          (TLine.dirLine pfx (decide (index = total - 1)) name ::
            (buildTree maxDepth children
              (pfx ++ (if decide (index = total - 1) then "    " else "│   "))
              (depth + 1) (count + 1)).1,
           (buildTree maxDepth children
             (pfx ++ (if decide (index = total - 1) then "    " else "│   "))
             (depth + 1) (count + 1)).2)
        else
          (TLine.dirLine pfx (decide (index = total - 1)) name ::
            (buildTree maxDepth children
              (pfx ++ (if decide (index = total - 1) then "    " else "│   "))
              (depth + 1) (count + 1)).1 ++
            (dirsLoop maxDepth rest (index + 1) total pfx depth
              (buildTree maxDepth children
                (pfx ++ (if decide (index = total - 1) then "    " else "│   "))
                (depth + 1) (count + 1)).2).1,
           (dirsLoop maxDepth rest (index + 1) total pfx depth
             (buildTree maxDepth children
               (pfx ++ (if decide (index = total - 1) then "    " else "│   "))
               (depth + 1) (count + 1)).2).2)
      else
        (TLine.dirLine pfx (decide (index = total - 1)) name ::
          (dirsLoop maxDepth rest (index + 1) total pfx depth (count + 1)).1,
         (dirsLoop maxDepth rest (index + 1) total pfx depth (count + 1)).2)
termination_by (maxDepth - depth, 0, ds.length)

end

/-! ### Bounded directory listing (src/tools/list.rs) -/

/-- Entry-line ceiling of `list_directory` (`MAX_DIR_ENTRIES`). -/
def MAX_DIR_ENTRIES : Nat := 1000

/-- One output line of `list_directory`: a directory line, a file line,
the single truncation notice (entries shown, entries total), or the
empty-directory note. -/
inductive LLine where
  | dirEntry : String → LLine
  | fileEntry : String → Nat → LLine
  | notice : Nat → Nat → LLine
  | emptyNote : LLine
deriving DecidableEq, Repr

/-- Model of `FilesystemService::list_directory` output assembly:
directory lines then file lines, each group sorted; when more than the
ceiling of entry lines exist, keep the first `MAX_DIR_ENTRIES` and
append one truncation notice. -/
def listDirectory (es : List (String × Node)) : List LLine :=
  let dirNames := es.filterMap fun e =>
    match e with
    | (n, .dir _) => some n
    | _ => none
  let fileEs := es.filterMap fun e =>
    match e with
    | (n, .file sz) => some (n, sz)
    | _ => none
  let dirs := (sortByName id dirNames).map LLine.dirEntry
  let files := (sortByName Prod.fst fileEs).map fun e => LLine.fileEntry e.1 e.2
  let lines := dirs ++ files
  if lines.isEmpty then [LLine.emptyNote]
  else if MAX_DIR_ENTRIES < lines.length then
    lines.take MAX_DIR_ENTRIES ++ [LLine.notice MAX_DIR_ENTRIES lines.length]
  else lines

/-- Number of entry lines (non-notice) in a tree rendering. -/
def entryCountT (ls : List TLine) : Nat :=
  (ls.filter fun l => match l with | .truncLine _ => false | _ => true).length

/-- Number of truncation notices in a tree rendering. -/
def truncCountT (ls : List TLine) : Nat :=
  (ls.filter fun l => match l with | .truncLine _ => true | _ => false).length

/-- Number of entry lines in a directory listing. -/
def entryCountL (ls : List LLine) : Nat :=
  (ls.filter fun l =>
    match l with
    | .dirEntry _ => true
    | .fileEntry _ _ => true
    | _ => false).length

/-- Number of truncation notices in a directory listing. -/
def noticeCountL (ls : List LLine) : Nat :=
  (ls.filter fun l => match l with | .notice _ _ => true | _ => false).length

/-! ### Bounded glob search (src/tools/search.rs) -/

/-- A search result: path relative to the search root, and file size. -/
abbrev SRes := List String × Nat

/-- The per-directory file pass of `search_files`: files are tested (in
enumeration order) against the matcher on their root-relative path and
appended to the results; reaching the result cap stops the whole walk
with the truncated flag. -/
def addFiles (matcher : List String → Bool) (maxResults : Nat) (rel : List String) :
    List (String × Node) → List SRes → List SRes × Bool
  | [], acc => (acc, false)
  | (n, node) :: rest, acc =>
    match node with
    | .file sz =>
      if matcher (rel ++ [n]) then
        let acc2 := acc ++ [(rel ++ [n], sz)]
        if maxResults ≤ acc2.length then (acc2, true)
        else addFiles matcher maxResults rel rest acc2
      else addFiles matcher maxResults rel rest acc
    | _ => addFiles matcher maxResults rel rest acc

/-- The subdirectory entries of one directory (no hidden-name skip in
the search walk). -/
def subDirsOf (es : List (String × Node)) : List (String × List (String × Node)) :=
  es.filterMap fun e =>
    match e with
    | (n, .dir cs) => some (n, cs)
    | _ => none

mutual

/-- Model of the `search_files` walk on one directory: process the files
of this directory in enumeration order, then (while the depth bound
allows) visit the subdirectories in sorted order.  The explicit Rust
stack pops subdirectories in sorted order with each fully processed
before its later siblings, which is exactly this preorder recursion. -/
def searchDir (matcher : List String → Bool) (maxDepth maxResults : Nat)
    (es : List (String × Node)) (rel : List String) (depth : Nat)
    (acc : List SRes) : List SRes × Bool :=
  if (addFiles matcher maxResults rel es acc).2 then
    ((addFiles matcher maxResults rel es acc).1, true)
  else if h : depth < maxDepth then
    searchSubs matcher maxDepth maxResults (sortByName Prod.fst (subDirsOf es))
      rel depth h (addFiles matcher maxResults rel es acc).1
  else ((addFiles matcher maxResults rel es acc).1, false)
termination_by (maxDepth - depth, 1, 0)

/-- Visit sorted subdirectories in order, stopping early when the result
cap was reached inside one of them. -/
def searchSubs (matcher : List String → Bool) (maxDepth maxResults : Nat)
    (subs : List (String × List (String × Node))) (rel : List String)
    (depth : Nat) (h : depth < maxDepth) (acc : List SRes) : List SRes × Bool :=
  match subs with
  | [] => (acc, false)
  | (n, cs) :: rest =>
    if (searchDir matcher maxDepth maxResults cs (rel ++ [n]) (depth + 1) acc).2 then
      ((searchDir matcher maxDepth maxResults cs (rel ++ [n]) (depth + 1) acc).1, true)
    else searchSubs matcher maxDepth maxResults rest rel depth h
      (searchDir matcher maxDepth maxResults cs (rel ++ [n]) (depth + 1) acc).1
termination_by (maxDepth - depth, 0, subs.length)

end

/-- The search entry point: empty starting state at the canonical root. -/
def searchFiles (matcher : List String → Bool) (maxDepth maxResults : Nat)
    (es : List (String × Node)) : List SRes × Bool :=
  searchDir matcher maxDepth maxResults es [] 0 []

mutual

/-- Sort every directory level of a node by name (children first,
then this level). -/
def normalizeNode : Node → Node
  | .file sz => .file sz
  | .symlink t => .symlink t
  | .dir es => .dir (sortByName Prod.fst (normalizeEntries es))

/-- Normalize all entries of a directory level. -/
def normalizeEntries : List (String × Node) → List (String × Node)
  | [] => []
  | (n, c) :: rest => (n, normalizeNode c) :: normalizeEntries rest

end

/-- Directory contents up to enumeration order: equal normal forms
(every level sorted by name). -/
def SameContents (t1 t2 : List (String × Node)) : Prop :=
  sortByName Prod.fst (normalizeEntries t1) = sortByName Prod.fst (normalizeEntries t2)

mutual

/-- The matches a full unbounded-results walk of one directory would
collect: the matching files in enumeration order, then the matches of
the sorted subdirectories while the depth bound allows. -/
def specFiles (matcher : List String → Bool) (rel : List String)
    (es : List (String × Node)) : List SRes :=
  es.filterMap fun e =>
    match e with
    | (n, .file sz) => if matcher (rel ++ [n]) then some (rel ++ [n], sz) else none
    | _ => none

def specDir (matcher : List String → Bool) (maxDepth : Nat)
    (es : List (String × Node)) (rel : List String) (depth : Nat) : List SRes :=
  if h : depth < maxDepth then
    specFiles matcher rel es ++
      specSubs matcher maxDepth (sortByName Prod.fst (subDirsOf es)) rel depth h
  else specFiles matcher rel es
termination_by (maxDepth - depth, 1, 0)

/-- The matches of a list of subdirectories, in order. -/
def specSubs (matcher : List String → Bool) (maxDepth : Nat)
    (subs : List (String × List (String × Node))) (rel : List String)
    (depth : Nat) (h : depth < maxDepth) : List SRes :=
  match subs with
  | [] => []
  | (n, cs) :: rest =>
    specDir matcher maxDepth cs (rel ++ [n]) (depth + 1) ++
      specSubs matcher maxDepth rest rel depth h
termination_by (maxDepth - depth, 0, subs.length)

end

/-! ### Atomic multi-edit (src/tools/write.rs) -/

/-- One text replacement of `edit_file`. -/
structure EditOp where
  old_text : String
  new_text : String
deriving DecidableEq, Repr

/-- Count of non-overlapping leftmost occurrences of a nonempty pattern
(model of Rust `str::matches(..).count()` for nonempty patterns); the
structural budget is the remaining length, which only shrinks, so a
budget of the whole length is exact. -/
def countGo (pat : List Char) : Nat → List Char → Nat
  | 0, _ => 0
  | _, [] => 0
  | fuel + 1, c :: rest =>
    if List.isPrefixOf pat (c :: rest) then
      1 + countGo pat fuel (rest.drop (pat.length - 1))
    else countGo pat fuel rest

/-- Count of non-overlapping leftmost occurrences of a nonempty
pattern. -/
def countOccsPos (pat s : List Char) : Nat :=
  countGo pat s.length s

/-- Count of non-overlapping occurrences (an empty pattern matches at
every boundary, as in Rust). -/
def countOccs (pat s : List Char) : Nat :=
  if pat.isEmpty then s.length + 1 else countOccsPos pat s

/-- Replace the first occurrence of the pattern (model of Rust
`str::replacen(pat, new, 1)`). -/
def replaceFirst (pat new : List Char) : List Char → List Char
  | [] => if pat.isEmpty then new else []
  | c :: rest =>
    if List.isPrefixOf pat (c :: rest) then new ++ (c :: rest).drop pat.length
    else c :: replaceFirst pat new rest

/-- One step of the `edit_file` loop: the old text must occur exactly
once in the current in-memory content, otherwise the whole operation
fails with `EditFailed`. -/
def applyEdit (content : String) (e : EditOp) : Except FsError String :=
  let cnt := countOccs e.old_text.data content.data
  if cnt = 0 then .error .editFailed
  else if 1 < cnt then .error .editFailed
  else .ok ⟨replaceFirst e.old_text.data e.new_text.data content.data⟩

/-- The whole in-memory edit loop of `edit_file`. -/
def applyEdits (content : String) : List EditOp → Except FsError String
  | [] => .ok content
  | e :: rest =>
    match applyEdit content e with
    | .error er => .error er
    | .ok c2 => applyEdits c2 rest

/-- Model of `edit_file` against a disk (path-to-content map): read the
file, run the whole edit loop in memory, and only on success perform the
single write back to disk.  Every failure leaves the disk untouched. -/
def editFile (disk : String → Option String) (path : String)
    (edits : List EditOp) : Except FsError String × (String → Option String) :=
  match disk path with
  | none => (.error .notFound, disk)
  | some content =>
    match applyEdits content edits with
    | .error e => (.error e, disk)
    | .ok c2 => (.ok c2, fun q => if q = path then some c2 else disk q)

/-! ### Counting lemmas for the bounded renderers -/

theorem entryCountT_nil : entryCountT [] = 0 := rfl

theorem truncCountT_nil : truncCountT [] = 0 := rfl

theorem entryCountT_append (a b : List TLine) :
    entryCountT (a ++ b) = entryCountT a + entryCountT b := by
  unfold entryCountT
  rw [List.filter_append, List.length_append]

theorem truncCountT_append (a b : List TLine) :
    truncCountT (a ++ b) = truncCountT a + truncCountT b := by
  unfold truncCountT
  rw [List.filter_append, List.length_append]

theorem entryCountT_dir (p : String) (b : Bool) (n : String) (tl : List TLine) :
    entryCountT (.dirLine p b n :: tl) = entryCountT tl + 1 := by
  unfold entryCountT
  simp [List.filter_cons]

theorem entryCountT_file (p : String) (b : Bool) (n : String) (sz : Nat)
    (tl : List TLine) :
    entryCountT (.fileLine p b n sz :: tl) = entryCountT tl + 1 := by
  unfold entryCountT
  simp [List.filter_cons]

theorem entryCountT_trunc (p : String) (tl : List TLine) :
    entryCountT (.truncLine p :: tl) = entryCountT tl := by
  unfold entryCountT
  simp [List.filter_cons]

theorem truncCountT_dir (p : String) (b : Bool) (n : String) (tl : List TLine) :
    truncCountT (.dirLine p b n :: tl) = truncCountT tl := by
  unfold truncCountT
  simp [List.filter_cons]

theorem truncCountT_file (p : String) (b : Bool) (n : String) (sz : Nat)
    (tl : List TLine) :
    truncCountT (.fileLine p b n sz :: tl) = truncCountT tl := by
  unfold truncCountT
  simp [List.filter_cons]

theorem truncCountT_trunc (p : String) (tl : List TLine) :
    truncCountT (.truncLine p :: tl) = truncCountT tl + 1 := by
  unfold truncCountT
  simp [List.filter_cons]

/-- The emission invariant of one renderer result, relative to the
entry count at which the walk started. -/
def TreeInv (r : List TLine × Nat) (count : Nat) : Prop :=
  entryCountT r.1 = min r.2 MAX_TREE_ENTRIES - count ∧
    truncCountT r.1 = (if MAX_TREE_ENTRIES < r.2 then 1 else 0) ∧
    count ≤ r.2

theorem filesLoop_inv (fls : List (String × Nat)) :
    ∀ (index total : Nat) (pfx : String) (count : Nat),
      count ≤ MAX_TREE_ENTRIES →
      TreeInv (filesLoop fls index total pfx count) count := by
  induction fls with
  | nil =>
    intro index total pfx count hc
    simp only [filesLoop, TreeInv, entryCountT_nil, truncCountT_nil]
    constructor
    · omega
    · constructor
      · rw [if_neg (by omega)]
      · exact le_refl _
  | cons f rest ih =>
    intro index total pfx count hc
    obtain ⟨name, sz⟩ := f
    simp only [filesLoop]
    by_cases h1 : MAX_TREE_ENTRIES < count + 1
    · rw [if_pos h1]
      refine ⟨?_, ?_, ?_⟩
      · simp only [entryCountT_trunc, entryCountT_nil]
        omega
      · simp only [truncCountT_trunc, truncCountT_nil]
        rw [if_pos (by omega)]
      · omega
    · rw [if_neg h1]
      have hrec := ih (index + 1) total pfx (count + 1) (by omega)
      obtain ⟨h2, h3, h4⟩ := hrec
      refine ⟨?_, ?_, ?_⟩
      · simp only [entryCountT_file]
        rw [h2]
        have hm : min (filesLoop rest (index + 1) total pfx (count + 1)).2
            MAX_TREE_ENTRIES ≥ count + 1 := by
          omega
        omega
      · simp only [truncCountT_file]
        exact h3
      · omega

theorem buildTree_inv (maxDepth : Nat) :
    ∀ (es : List (String × Node)) (pfx : String) (depth count : Nat),
      count ≤ MAX_TREE_ENTRIES →
      TreeInv (buildTree maxDepth es pfx depth count) count := by
  refine buildTree.induct maxDepth
    (fun es pfx depth count =>
      count ≤ MAX_TREE_ENTRIES → TreeInv (buildTree maxDepth es pfx depth count) count)
    (fun ds index total pfx depth count =>
      count ≤ MAX_TREE_ENTRIES →
        TreeInv (dirsLoop maxDepth ds index total pfx depth count) count)
    ?_ ?_ ?_ ?_ ?_ ?_ ?_ ?_
  · intro es pfx depth count htot hc
    simp only [buildTree]
    rw [if_pos htot]
    refine ⟨?_, ?_, le_refl _⟩
    · simp only [entryCountT_nil]
      omega
    · simp only [truncCountT_nil]
      rw [if_neg (by omega)]
  · intro es pfx depth count htot hover ih hc
    simp only [buildTree]
    rw [if_neg htot, if_pos hover]
    exact ih hc
  · intro es pfx depth count htot hover ih hc
    simp only [buildTree]
    rw [if_neg htot, if_neg hover]
    obtain ⟨h2, h3, h4⟩ := ih hc
    obtain ⟨h5, h6, h7⟩ := filesLoop_inv (sortByName Prod.fst (treeFiles es))
      (sortByName Prod.fst (treeDirs es)).length
      ((sortByName Prod.fst (treeDirs es)).length +
        (sortByName Prod.fst (treeFiles es)).length) pfx
      (dirsLoop maxDepth (sortByName Prod.fst (treeDirs es)) 0
        ((sortByName Prod.fst (treeDirs es)).length +
          (sortByName Prod.fst (treeFiles es)).length) pfx depth count).2
      (by omega)
    refine ⟨?_, ?_, ?_⟩
    · simp only [entryCountT_append]
      rw [h2, h5]
      omega
    · simp only [truncCountT_append]
      rw [h3, h6, if_neg hover]
      rw [Nat.zero_add]
    · omega
  · intro index total pfx depth count hc
    simp only [dirsLoop]
    refine ⟨?_, ?_, le_refl _⟩
    · simp only [entryCountT_nil]
      omega
    · simp only [truncCountT_nil]
      rw [if_neg (by omega)]
  · intro index total pfx depth count name children rest hover hc
    simp only [dirsLoop]
    rw [if_pos hover]
    refine ⟨?_, ?_, ?_⟩
    · simp only [entryCountT_trunc, entryCountT_nil]
      omega
    · simp only [truncCountT_trunc, truncCountT_nil]
      rw [if_pos hover]
    · omega
  · intro index total pfx depth count name children rest hok hdep hover ihsub hc
    simp only [dite_eq_ite] at hover ihsub
    simp only [dirsLoop]
    rw [if_neg hok, dif_pos hdep, if_pos hover]
    obtain ⟨h2, h3, h4⟩ := ihsub (by omega)
    refine ⟨?_, ?_, ?_⟩
    · simp only [entryCountT_dir]
      rw [h2]
      omega
    · simp only [truncCountT_dir]
      rw [h3]
    · omega
  · intro index total pfx depth count name children rest hok hdep hover ihsub ihrest hc
    simp only [dite_eq_ite] at hover ihsub ihrest
    simp only [dirsLoop]
    rw [if_neg hok, dif_pos hdep, if_neg hover]
    obtain ⟨h2, h3, h4⟩ := ihsub (by omega)
    obtain ⟨h5, h6, h7⟩ := ihrest (by omega)
    refine ⟨?_, ?_, ?_⟩
    · simp only [entryCountT_dir, entryCountT_append]
      rw [h2, h5]
      omega
    · simp only [truncCountT_dir, truncCountT_append]
      rw [h3, h6, if_neg hover]
      rw [Nat.zero_add]
    · omega
  · intro index total pfx depth count name children rest hok hdep ihrest hc
    simp only [dirsLoop]
    rw [if_neg hok, dif_neg hdep]
    obtain ⟨h2, h3, h4⟩ := ihrest (by omega)
    refine ⟨?_, ?_, ?_⟩
    · simp only [entryCountT_dir]
      rw [h2]
      omega
    · simp only [truncCountT_dir]
      rw [h3]
    · omega

theorem sortByName_length {α : Type} (key : α → String) :
    ∀ l : List α, (sortByName key l).length = l.length := by
  intro l
  induction l with
  | nil => rfl
  | cons x xs ih =>
    have hins : ∀ (a : α) (m : List α),
        (insertByName key a m).length = m.length + 1 := by
      intro a m
      induction m with
      | nil => rfl
      | cons y ys ihm =>
        simp only [insertByName]
        split
        · simp
        · simp [ihm]
    simp only [sortByName, hins, ih]
    rw [List.length_cons]

theorem entryCountL_append (a b : List LLine) :
    entryCountL (a ++ b) = entryCountL a + entryCountL b := by
  unfold entryCountL
  rw [List.filter_append, List.length_append]

theorem noticeCountL_append (a b : List LLine) :
    noticeCountL (a ++ b) = noticeCountL a + noticeCountL b := by
  unfold noticeCountL
  rw [List.filter_append, List.length_append]

theorem entryCountL_map_dir (l : List String) :
    entryCountL (l.map LLine.dirEntry) = l.length := by
  induction l with
  | nil => rfl
  | cons x xs ih =>
    unfold entryCountL at ih ⊢
    simp only [List.map_cons, List.filter_cons]
    rw [if_pos trivial, List.length_cons, List.length_cons, ih]

theorem entryCountL_map_file (l : List (String × Nat)) :
    entryCountL (l.map fun e => LLine.fileEntry e.1 e.2) = l.length := by
  induction l with
  | nil => rfl
  | cons x xs ih =>
    unfold entryCountL at ih ⊢
    simp only [List.map_cons, List.filter_cons]
    rw [if_pos trivial, List.length_cons, List.length_cons, ih]

theorem noticeCountL_map_dir (l : List String) :
    noticeCountL (l.map LLine.dirEntry) = 0 := by
  induction l with
  | nil => rfl
  | cons x xs ih =>
    unfold noticeCountL at ih ⊢
    simp only [List.map_cons, List.filter_cons]
    simpa using ih

theorem noticeCountL_map_file (l : List (String × Nat)) :
    noticeCountL (l.map fun e => LLine.fileEntry e.1 e.2) = 0 := by
  induction l with
  | nil => rfl
  | cons x xs ih =>
    unfold noticeCountL at ih ⊢
    simp only [List.map_cons, List.filter_cons]
    simpa using ih

theorem entryCountL_le_length (l : List LLine) : entryCountL l ≤ l.length :=
  List.length_filter_le _ l

theorem noticeCountL_take_le : ∀ (n : Nat) (l : List LLine),
    noticeCountL (l.take n) ≤ noticeCountL l := by
  intro n l
  induction l generalizing n with
  | nil => simp [noticeCountL]
  | cons x xs ih =>
    cases n with
    | zero => simp [noticeCountL]
    | succ m =>
      rw [List.take_succ_cons]
      unfold noticeCountL at ih ⊢
      simp only [List.filter_cons]
      split
      · simp only [List.length_cons]
        have := ih m
        omega
      · exact ih m

theorem entryCountL_take_full : ∀ (n : Nat) (l : List LLine),
    entryCountL l = l.length → entryCountL (l.take n) = (l.take n).length := by
  intro n l
  induction l generalizing n with
  | nil =>
    intro h
    rw [List.take_nil]
    exact h
  | cons x xs ih =>
    intro h
    unfold entryCountL at h ⊢
    cases n with
    | zero => simp
    | succ m =>
      rw [List.take_succ_cons]
      simp only [List.filter_cons] at h ⊢
      split at h
      · rename_i hx
        rw [if_pos hx]
        simp only [List.length_cons] at h ⊢
        have hih := ih m (by unfold entryCountL; omega)
        unfold entryCountL at hih
        omega
      · exfalso
        have hle := List.length_filter_le
          (fun l => match l with
            | LLine.dirEntry _ => true
            | LLine.fileEntry _ _ => true
            | _ => false) xs
        simp only [List.length_cons] at h
        omega

theorem entryCountL_single_notice (a b : Nat) :
    entryCountL [LLine.notice a b] = 0 := rfl

theorem noticeCountL_single_notice (a b : Nat) :
    noticeCountL [LLine.notice a b] = 1 := rfl

/-- Truncating an all-entry line list at the ceiling and appending the
notice yields exactly the ceiling of entries and exactly one notice. -/
theorem truncNotice_bounds (lines : List LLine) (htotal : Nat)
    (hfull : entryCountL lines = lines.length) (hno : noticeCountL lines = 0)
    (hbig : MAX_DIR_ENTRIES < lines.length) :
    entryCountL (lines.take MAX_DIR_ENTRIES ++
        [LLine.notice MAX_DIR_ENTRIES htotal]) = MAX_DIR_ENTRIES ∧
      noticeCountL (lines.take MAX_DIR_ENTRIES ++
        [LLine.notice MAX_DIR_ENTRIES htotal]) = 1 := by
  constructor
  · rw [entryCountL_append, entryCountL_single_notice]
    rw [entryCountL_take_full MAX_DIR_ENTRIES lines hfull]
    rw [List.length_take]
    omega
  · rw [noticeCountL_append, noticeCountL_single_notice]
    have := noticeCountL_take_le MAX_DIR_ENTRIES lines
    omega

/-- The bounds of `list_directory`: at most the ceiling of entry lines,
at most one truncation notice, and exactly one notice (with exactly the
ceiling of entries kept) once the directory holds more than the ceiling
of listable entries. -/
theorem listDirectory_bounds (es : List (String × Node)) :
    entryCountL (listDirectory es) ≤ MAX_DIR_ENTRIES ∧
      noticeCountL (listDirectory es) ≤ 1 ∧
      (MAX_DIR_ENTRIES <
          (es.filterMap fun e =>
            match e with
            | (n, .dir _) => some n
            | _ => none).length +
          (es.filterMap fun e =>
            match e with
            | (n, .file sz) => some (n, sz)
            | _ => none).length →
        noticeCountL (listDirectory es) = 1 ∧
          entryCountL (listDirectory es) = MAX_DIR_ENTRIES) := by
  unfold listDirectory
  simp only []
  have hdn := entryCountL_map_dir (sortByName id (es.filterMap fun e =>
    match e with
    | (n, .dir _) => some n
    | _ => none))
  have hfn := entryCountL_map_file (sortByName Prod.fst (es.filterMap fun e =>
    match e with
    | (n, .file sz) => some (n, sz)
    | _ => none))
  have hdn0 := noticeCountL_map_dir (sortByName id (es.filterMap fun e =>
    match e with
    | (n, .dir _) => some n
    | _ => none))
  have hfn0 := noticeCountL_map_file (sortByName Prod.fst (es.filterMap fun e =>
    match e with
    | (n, .file sz) => some (n, sz)
    | _ => none))
  have hlen1 := sortByName_length id (es.filterMap fun e =>
    match e with
    | (n, .dir _) => some n
    | _ => none)
  have hlen2 := sortByName_length Prod.fst (es.filterMap fun e =>
    match e with
    | (n, .file sz) => some (n, sz)
    | _ => none)
  split
  · rename_i hempty
    refine ⟨by simp [entryCountL], by simp [noticeCountL], fun hex => ?_⟩
    exfalso
    rw [List.isEmpty_iff] at hempty
    have := congrArg List.length hempty
    simp only [List.length_append, List.length_map, List.length_nil] at this
    omega
  · split
    · rename_i hne hbig
      have hfull : entryCountL
          (((sortByName id (es.filterMap fun e =>
              match e with
              | (n, .dir _) => some n
              | _ => none)).map LLine.dirEntry) ++
            ((sortByName Prod.fst (es.filterMap fun e =>
              match e with
              | (n, .file sz) => some (n, sz)
              | _ => none)).map fun e => LLine.fileEntry e.1 e.2)) =
          (((sortByName id (es.filterMap fun e =>
              match e with
              | (n, .dir _) => some n
              | _ => none)).map LLine.dirEntry) ++
            ((sortByName Prod.fst (es.filterMap fun e =>
              match e with
              | (n, .file sz) => some (n, sz)
              | _ => none)).map fun e => LLine.fileEntry e.1 e.2)).length := by
        rw [entryCountL_append, hdn, hfn]
        simp
      have hno : noticeCountL
          (((sortByName id (es.filterMap fun e =>
              match e with
              | (n, .dir _) => some n
              | _ => none)).map LLine.dirEntry) ++
            ((sortByName Prod.fst (es.filterMap fun e =>
              match e with
              | (n, .file sz) => some (n, sz)
              | _ => none)).map fun e => LLine.fileEntry e.1 e.2)) = 0 := by
        rw [noticeCountL_append, hdn0, hfn0]
      obtain ⟨hb1, hb2⟩ := truncNotice_bounds _ _ hfull hno hbig
      refine ⟨by rw [hb1], by rw [hb2], fun hex => ⟨hb2, hb1⟩⟩
    · rename_i hne hsmall
      simp only [List.length_append, List.length_map] at hsmall
      refine ⟨?_, ?_, fun hex => ?_⟩
      · rw [entryCountL_append, hdn, hfn]
        omega
      · rw [noticeCountL_append, hdn0, hfn0]
        omega
      · exfalso
        omega

/-- Claim C8: bounded emission with a single truncation marker.  For
every directory tree, `directory_tree` (via `build_tree_sync`) emits at
most its ceiling of 1000 entries, never more than one truncation
notice, and exactly one notice whenever the entry counter exceeded the
ceiling (the walk having stopped); `list_directory` emits at most 1000
entry lines and, whenever the directory holds more than 1000 listable
entries, keeps exactly the first 1000 and appends exactly one
truncation notice. -/
theorem c8_bounded_emission :
    (∀ (maxDepth : Nat) (es : List (String × Node)),
      entryCountT (buildTree maxDepth es ("") 0 0).1 ≤ MAX_TREE_ENTRIES ∧
        truncCountT (buildTree maxDepth es ("") 0 0).1 ≤ 1 ∧
        (MAX_TREE_ENTRIES < (buildTree maxDepth es ("") 0 0).2 →
          truncCountT (buildTree maxDepth es ("") 0 0).1 = 1)) ∧
    (∀ es : List (String × Node),
      entryCountL (listDirectory es) ≤ MAX_DIR_ENTRIES ∧
        noticeCountL (listDirectory es) ≤ 1 ∧
        (MAX_DIR_ENTRIES <
            (es.filterMap fun e =>
              match e with
              | (n, .dir _) => some n
              | _ => none).length +
            (es.filterMap fun e =>
              match e with
              | (n, .file sz) => some (n, sz)
              | _ => none).length →
          noticeCountL (listDirectory es) = 1 ∧
            entryCountL (listDirectory es) = MAX_DIR_ENTRIES)) := by
  constructor
  · intro maxDepth es
    obtain ⟨h1, h2, h3⟩ := buildTree_inv maxDepth es ("") 0 0 (by unfold MAX_TREE_ENTRIES; omega)
    refine ⟨?_, ?_, ?_⟩
    · omega
    · rw [h2]
      split
      · omega
      · omega
    · intro hex
      rw [h2, if_pos hex]
  · intro es
    exact listDirectory_bounds es

/-- Witness for C8 at a concrete two-entry tree. -/
theorem c8_bounded_emission_witness :
    entryCountT (buildTree 5 [("a", Node.dir []), ("b.txt", Node.file 3)] ("") 0 0).1 ≤
        MAX_TREE_ENTRIES ∧
      truncCountT (buildTree 5 [("a", Node.dir []), ("b.txt", Node.file 3)] ("") 0 0).1 ≤ 1 ∧
      (MAX_TREE_ENTRIES <
          (buildTree 5 [("a", Node.dir []), ("b.txt", Node.file 3)] ("") 0 0).2 →
        truncCountT (buildTree 5 [("a", Node.dir []), ("b.txt", Node.file 3)] ("") 0 0).1 = 1) :=
  c8_bounded_emission.1 5 [("a", Node.dir []), ("b.txt", Node.file 3)]

/-- Unfold `editFile` once the file content is known. -/
theorem editFile_eq_of {disk : String → Option String} {path content : String}
    {edits : List EditOp} (h : disk path = some content) :
    editFile disk path edits =
      match applyEdits content edits with
      | .error e => (.error e, disk)
      | .ok c2 => (.ok c2, fun q => if q = path then some c2 else disk q) := by
  unfold editFile
  rw [h]

theorem applyEdits_append (pre post : List EditOp) :
    ∀ content : String,
      applyEdits content (pre ++ post) =
        match applyEdits content pre with
        | .ok c2 => applyEdits c2 post
        | .error e => .error e := by
  induction pre with
  | nil =>
    intro content
    simp [applyEdits]
  | cons e rest ih =>
    intro content
    simp only [List.cons_append, applyEdits]
    cases applyEdit content e with
    | error er => rfl
    | ok c2 => exact ih c2

/-- Every edit step that fails does so with the typed edit failure. -/
theorem applyEdit_fail {content : String} {e : EditOp}
    (h : countOccs e.old_text.data content.data ≠ 1) :
    applyEdit content e = .error .editFailed := by
  unfold applyEdit
  simp only []
  by_cases h0 : countOccs e.old_text.data content.data = 0
  · rw [if_pos h0]
  · rw [if_neg h0, if_pos (by omega)]

/-- Claim C10: atomicity of `edit_file` on failure.  If, with all
earlier edits already applied in memory, some edit matches the current
content zero times or more than once, the whole call returns the
`EditFailed` error and the disk is unchanged; more generally any error
outcome leaves the disk exactly as it was, because the single write
happens only after the whole in-memory edit loop has succeeded. -/
theorem c10_edit_atomicity :
    (∀ (disk : String → Option String) (path content : String)
        (pre : List EditOp) (e : EditOp) (post : List EditOp) (c1 : String),
      disk path = some content →
      applyEdits content pre = .ok c1 →
      countOccs e.old_text.data c1.data ≠ 1 →
      (editFile disk path (pre ++ e :: post)).1 = .error .editFailed ∧
        (editFile disk path (pre ++ e :: post)).2 = disk) ∧
    (∀ (disk : String → Option String) (path : String) (edits : List EditOp)
        (er : FsError),
      (editFile disk path edits).1 = .error er →
      (editFile disk path edits).2 = disk) := by
  constructor
  · intro disk path content pre e post c1 hdisk hpre hcnt
    have happ : applyEdits content (pre ++ e :: post) = .error .editFailed := by
      rw [applyEdits_append]
      rw [hpre]
      simp only [applyEdits]
      rw [applyEdit_fail hcnt]
    rw [editFile_eq_of hdisk]
    rw [happ]
    exact ⟨rfl, rfl⟩
  · intro disk path edits er herr
    cases hdisk : disk path with
    | none =>
      unfold editFile
      rw [hdisk]
    | some content =>
      rw [editFile_eq_of hdisk] at herr ⊢
      cases happ : applyEdits content edits with
      | error e2 => rfl
      | ok c2 =>
        rw [happ] at herr
        cases herr

/-- Witness for C10: a concrete failing edit list leaves the concrete
disk unchanged. -/
theorem c10_edit_atomicity_witness :
    ((fun q => if q = "f.txt" then some ("Hello") else none) ("f.txt") = some ("Hello")) ∧
      applyEdits ("Hello") [] = .ok ("Hello") ∧
      countOccs (EditOp.mk ("xyz") ("Y")).old_text.data ("Hello" : String).data ≠ 1 ∧
      (editFile (fun q => if q = "f.txt" then some ("Hello") else none) ("f.txt")
          ([] ++ EditOp.mk ("xyz") ("Y") :: [])).1 = .error .editFailed ∧
      (editFile (fun q => if q = "f.txt" then some ("Hello") else none) ("f.txt")
          ([] ++ EditOp.mk ("xyz") ("Y") :: [])).2 =
        (fun q => if q = "f.txt" then some ("Hello") else none) := by
  refine ⟨by simp, rfl, by decide, ?_⟩
  exact c10_edit_atomicity.1 (fun q => if q = "f.txt" then some ("Hello") else none)
    ("f.txt") ("Hello") [] (EditOp.mk ("xyz") ("Y")) [] ("Hello")
    (by simp) rfl (by decide)

/-! ### Trailing-separator lemmas -/

theorem osComps_addSlash (p : Raw) : osComps (addSlash p) = osComps p := by
  unfold osComps addSlash
  simp only [List.filterMap_append, List.filterMap_cons]
  simp

theorem rtrimSegs_addSlash (a : Bool) (l : List String) :
    rtrimSegs a (l ++ [""]) = rtrimSegs a l := by
  unfold rtrimSegs
  simp only [List.reverse_append, List.reverse_cons, List.reverse_nil, List.nil_append,
    List.cons_append, List.dropWhile_cons]
  have hj : junkSeg ("") = true := rfl
  rw [hj]
  simp only [if_true]
  cases l with
  | nil => simp
  | cons x xs => simp

theorem rawParent_addSlash (p : Raw) : rawParent (addSlash p) = rawParent p := by
  unfold rawParent addSlash
  simp only [rtrimSegs_addSlash]

theorem rawFileName_addSlash (p : Raw) : rawFileName (addSlash p) = rawFileName p := by
  unfold rawFileName addSlash
  simp only [rtrimSegs_addSlash]

/-! ### Concrete fixture filesystems for the counterexamples and
witnesses -/

/-- Sandbox root ws with a subdirectory, a symlink whose target is an
existing file outside every root, and a dangling symlink. -/
def fsOutLink : Fs :=
  [("ws", .dir [("a", .dir [("b.txt", .file 3)]),
                ("link", .symlink ⟨true, ["etc", "secret"]⟩)]),
   ("etc", .dir [("secret", .file 5)])]

/-- Sandbox root ws containing a regular file and a symlink to it. -/
def fsInLink : Fs :=
  [("ws", .dir [("target", .file 7),
                ("link", .symlink ⟨true, ["ws", "target"]⟩)])]

/-- Two sibling directories whose names share a string prefix. -/
def fsSibling : Fs :=
  [("allowed", .dir []),
   ("allowed2", .dir [("x", .file 1)])]

/-- Sandbox root ws containing only the subdirectory a with one file. -/
def fsShallow : Fs :=
  [("ws", .dir [("a", .dir [("b.txt", .file 3)])])]

/-- Claim C1 (code bug evaluation): with sandbox root ws and the
symlink ws-link pointing at the existing outside file etc-secret, the
raw path ws-link with a trailing separator is accepted by
`validate_path` with canonical result ws-link, although the OS-level
symlink resolution of that returned path is etc-secret, which no
sandbox root contains: the canonicalization of the trailing-slash form
fails with a not-a-directory error, so the code falls back to
canonicalizing the parent and re-appending the link name, skipping the
symlink check that the claim (and the code intent shown by the
repository test denying symlinks that resolve outside) requires. -/
theorem c1_sandbox_escape_eval :
    validatePath [["ws"]] fsOutLink [] ⟨true, ["ws", "link", ""]⟩ = .ok ["ws", "link"] ∧
      canonRaw fsOutLink [] (rawOfAbs ["ws", "link"]) = some ["etc", "secret"] ∧
      containsPath [["ws"]] ["etc", "secret"] = false := by
  refine ⟨?_, ?_, by decide⟩
  · simp [validatePath, canonRaw, canonComps, resolve, osComps, dirRequired, rawParent,
      rawFileName, rtrimSegs, junkSeg, lookup, lookupIn, childNamed, containsPath,
      FUEL, fsOutLink, List.isPrefixOf]
  · simp [canonRaw, canonComps, resolve, osComps, dirRequired, rawOfAbs,
      rtrimSegs, junkSeg, lookup, lookupIn, childNamed, FUEL, fsOutLink]

/-- Claim C2: containment is the component-wise prefix test of Rust
`Path::starts_with`, not a string prefix test: whenever no configured
root is a component-wise prefix of the canonical form of the candidate,
both `validate_path` and `validate_creatable_path` (for an existing
target) reject with `PathDenied` — in particular a path under a sibling
directory such as allowed2 is rejected when the root is allowed. -/
theorem c2_componentwise_containment :
    (∀ (dirs : List AbsPath) (fs : Fs) (cwd : AbsPath) (p : Raw) (c : AbsPath),
      canonRaw fs cwd p = some c →
      (∀ d ∈ dirs, List.isPrefixOf d c = false) →
      validatePath dirs fs cwd p = .error .pathDenied) ∧
    (∀ (dirs : List AbsPath) (fs : Fs) (cwd : AbsPath) (p : Raw) (c : AbsPath),
      canonRaw fs cwd p = some c →
      (∀ d ∈ dirs, List.isPrefixOf d c = false) →
      validateCreatable dirs fs cwd p = .error .pathDenied) := by
  have hcont : ∀ (dirs : List AbsPath) (c : AbsPath),
      (∀ d ∈ dirs, List.isPrefixOf d c = false) → containsPath dirs c = false := by
    intro dirs c h
    unfold containsPath
    rw [List.any_eq_false]
    intro d hd
    rw [h d hd]
    exact Bool.false_ne_true
  constructor
  · intro dirs fs cwd p c hc h
    unfold validatePath
    simp only [hc]
    rw [if_neg (by rw [hcont dirs c h]; exact Bool.false_ne_true)]
  · intro dirs fs cwd p c hc h
    unfold validateCreatable
    split
    · rfl
    · have hex : rawExists fs cwd p = true := by
        unfold rawExists
        rw [hc]
        rfl
      rw [ancWalk]
      rw [if_pos hex]
      simp only [hc]
      rw [if_neg (by rw [hcont dirs c h]; exact Bool.false_ne_true)]

/-- Witness for C2: the allowed2 sibling of the allowed root is
rejected by both validators even though slash-allowed2 starts with the
string slash-allowed. -/
theorem c2_componentwise_containment_witness :
    canonRaw fsSibling [] ⟨true, ["allowed2", "x"]⟩ = some ["allowed2", "x"] ∧
      (∀ d ∈ [(["allowed"] : AbsPath)], List.isPrefixOf d ["allowed2", "x"] = false) ∧
      validatePath [["allowed"]] fsSibling [] ⟨true, ["allowed2", "x"]⟩ =
        .error .pathDenied ∧
      validateCreatable [["allowed"]] fsSibling [] ⟨true, ["allowed2", "x"]⟩ =
        .error .pathDenied := by
  have hc : canonRaw fsSibling [] ⟨true, ["allowed2", "x"]⟩ = some ["allowed2", "x"] := by
    simp [canonRaw, canonComps, resolve, osComps, dirRequired, rtrimSegs, junkSeg,
      lookup, lookupIn, childNamed, FUEL, fsSibling]
  have hpref : ∀ d ∈ [(["allowed"] : AbsPath)], List.isPrefixOf d ["allowed2", "x"] = false := by
    decide
  exact ⟨hc, hpref,
    c2_componentwise_containment.1 [["allowed"]] fsSibling [] ⟨true, ["allowed2", "x"]⟩
      ["allowed2", "x"] hc hpref,
    c2_componentwise_containment.2 [["allowed"]] fsSibling [] ⟨true, ["allowed2", "x"]⟩
      ["allowed2", "x"] hc hpref⟩

/-- Claim C3 counterexample: the raw path ws slash dot slash b contains
a literal dot component, yet `validate_creatable_path` accepts it (the
Rust component iterator normalizes interior dot components away before
the rejection scan), so the claim that every raw path containing a
literal dot component is rejected with `PathDenied` is false on the
code. -/
theorem c3_counterexample :
    ((⟨true, ["ws", ".", "b"]⟩ : Raw).segs.contains (".") = true) ∧
      validateCreatable [["ws"]] fsShallow [] ⟨true, ["ws", ".", "b"]⟩ = .ok ["ws", "b"] := by
  constructor
  · decide
  · simp [validateCreatable, ancWalk, rawExists, canonRaw, canonComps, resolve, osComps,
      dirRequired, rawParent, rawFileName, rtrimSegs, junkSeg, lookup, lookupIn,
      childNamed, containsPath, FUEL, fsShallow, rustComps, List.isPrefixOf]

/-- Claim C3 (amended): `validate_creatable_path` rejects with
`PathDenied` every raw path whose Rust component decomposition contains
a current-directory or parent-directory component — that is, any
literal dot-dot anywhere, and a literal leading dot of a relative path;
interior literal dot segments are normalized away by the component
iterator and are not rejected.  The rejection happens before any
canonicalization or ancestor walk: the outcome is `PathDenied` for
every filesystem state and working directory. -/
theorem c3_amended :
    ∀ (dirs : List AbsPath) (fs : Fs) (cwd : AbsPath) (p : Raw),
      (rustComps p).any
        (fun c => match c with | .cur => true | .par => true | .normal _ => false) = true →
      validateCreatable dirs fs cwd p = .error .pathDenied := by
  intro dirs fs cwd p h
  unfold validateCreatable
  rw [if_pos h]

/-- Witness for C3 (amended) at a dot-dot path. -/
theorem c3_amended_witness :
    (rustComps ⟨true, ["ws", "a", "..", "b"]⟩).any
        (fun c => match c with | .cur => true | .par => true | .normal _ => false) = true ∧
      validateCreatable [["ws"]] fsShallow [] ⟨true, ["ws", "a", "..", "b"]⟩ =
        .error .pathDenied :=
  ⟨by decide,
   c3_amended [["ws"]] fsShallow [] ⟨true, ["ws", "a", "..", "b"]⟩ (by decide)⟩

/-- Claim C5: the parent-only strategy of `validate_path` for targets
that do not exist: when the path itself cannot be canonicalized and its
parent (with a normal final segment present) cannot be canonicalized
either, the outcome is `NotFound` — `validate_path` never walks further
up the ancestor chain.  Concretely, with only ws slash a existing,
ws slash a slash c slash d.txt yields `NotFound` under `validate_path`
while the same missing chain ws slash a slash c slash d succeeds under
`validate_creatable_path` with the ancestor ws slash a found and the
tail c, d reattached. -/
theorem c5_parent_only_strategy :
    (∀ (dirs : List AbsPath) (fs : Fs) (cwd : AbsPath) (p par : Raw) (name : String),
      canonRaw fs cwd p = none →
      rawParent p = some par →
      rawFileName p = some name →
      canonRaw fs cwd par = none →
      validatePath dirs fs cwd p = .error .notFound) ∧
    validatePath [["ws"]] fsShallow [] ⟨true, ["ws", "a", "c", "d.txt"]⟩ =
      .error .notFound ∧
    validateCreatable [["ws"]] fsShallow [] ⟨true, ["ws", "a", "c", "d"]⟩ =
      .ok ["ws", "a", "c", "d"] := by
  refine ⟨?_, ?_, ?_⟩
  · intro dirs fs cwd p par name hc hpar hname hcp
    unfold validatePath
    simp only [hc, hpar, hname, hcp]
  · simp [validatePath, canonRaw, canonComps, resolve, osComps, dirRequired, rawParent,
      rawFileName, rtrimSegs, junkSeg, lookup, lookupIn, childNamed, containsPath,
      FUEL, fsShallow, List.isPrefixOf]
  · simp [validateCreatable, ancWalk, rawExists, canonRaw, canonComps, resolve, osComps,
      dirRequired, rawParent, rawFileName, rtrimSegs, junkSeg, lookup, lookupIn,
      childNamed, containsPath, FUEL, fsShallow, rustComps, List.isPrefixOf]

/-- Witness for C5 discharging the general part at the concrete missing
chain. -/
theorem c5_parent_only_strategy_witness :
    canonRaw fsShallow [] ⟨true, ["ws", "a", "c", "d.txt"]⟩ = none ∧
      rawParent ⟨true, ["ws", "a", "c", "d.txt"]⟩ = some ⟨true, ["ws", "a", "c"]⟩ ∧
      rawFileName ⟨true, ["ws", "a", "c", "d.txt"]⟩ = some ("d.txt") ∧
      canonRaw fsShallow [] ⟨true, ["ws", "a", "c"]⟩ = none ∧
      validatePath [["ws"]] fsShallow [] ⟨true, ["ws", "a", "c", "d.txt"]⟩ =
        .error .notFound := by
  have h1 : canonRaw fsShallow [] ⟨true, ["ws", "a", "c", "d.txt"]⟩ = none := by
    simp [canonRaw, canonComps, resolve, osComps, dirRequired, lookup, lookupIn,
      childNamed, FUEL, fsShallow]
  have h2 : rawParent ⟨true, ["ws", "a", "c", "d.txt"]⟩ = some ⟨true, ["ws", "a", "c"]⟩ := by
    simp [rawParent, rtrimSegs, junkSeg]
  have h3 : rawFileName ⟨true, ["ws", "a", "c", "d.txt"]⟩ = some ("d.txt") := by
    simp [rawFileName, rtrimSegs, junkSeg]
  have h4 : canonRaw fsShallow [] ⟨true, ["ws", "a", "c"]⟩ = none := by
    simp [canonRaw, canonComps, resolve, osComps, dirRequired, lookup, lookupIn,
      childNamed, FUEL, fsShallow]
  exact ⟨h1, h2, h3, h4,
    c5_parent_only_strategy.1 [["ws"]] fsShallow [] ⟨true, ["ws", "a", "c", "d.txt"]⟩
      ⟨true, ["ws", "a", "c"]⟩ ("d.txt") h1 h2 h3 h4⟩

/-- Claim C6 counterexample: validation is not idempotent on symlinks
reached through the fallback: with ws-link a symlink to the inside file
ws-target, `validate_path` on the trailing-slash form ws-link-slash
returns ws-link (fallback, symlink not resolved), but `validate_path`
on that returned path resolves the symlink and returns ws-target, a
different canonical path. -/
theorem c6_counterexample :
    validatePath [["ws"]] fsInLink [] (addSlash ⟨true, ["ws", "link"]⟩) =
        .ok ["ws", "link"] ∧
      validatePath [["ws"]] fsInLink [] (rawOfAbs ["ws", "link"]) = .ok ["ws", "target"] ∧
      (["ws", "target"] : AbsPath) ≠ ["ws", "link"] := by
  refine ⟨?_, ?_, by decide⟩
  · simp [validatePath, canonRaw, canonComps, resolve, osComps, dirRequired, rawParent,
      rawFileName, rtrimSegs, junkSeg, lookup, lookupIn, childNamed, containsPath,
      FUEL, fsInLink, addSlash, List.isPrefixOf]
  · simp [validatePath, canonRaw, canonComps, resolve, osComps, dirRequired, rawOfAbs,
      rtrimSegs, junkSeg, lookup, lookupIn, childNamed, containsPath,
      FUEL, fsInLink, List.isPrefixOf]

/-- Claim C6 (amended): re-validating a path returned by `validate_path`
succeeds and returns the same path, provided the returned path does not
denote a symbolic link (and the tree has well-formed entry names and the
working directory is a real directory chain).  The proviso is forced by
the counterexample: a fallback success can name a symlink, and
re-validation then resolves it to a different path. -/
theorem c6_idempotence :
    ∀ (dirs : List AbsPath) (fs : Fs) (cwd : AbsPath) (p : Raw) (c : AbsPath),
      wfEntries fs = true → RealDir fs cwd →
      validatePath dirs fs cwd p = .ok c →
      notSymlinkAt fs c = true →
      validatePath dirs fs cwd (rawOfAbs c) = .ok c :=
  fun _ _ _ _ _ hwf hcwd hok hns => validatePath_idem hwf hcwd hok hns

/-- Witness for C6 (amended) on a plain existing file. -/
theorem c6_idempotence_witness :
    wfEntries fsShallow = true ∧ RealDir fsShallow [] ∧
      validatePath [["ws"]] fsShallow [] ⟨true, ["ws", "a", "b.txt"]⟩ =
        .ok ["ws", "a", "b.txt"] ∧
      notSymlinkAt fsShallow ["ws", "a", "b.txt"] = true ∧
      validatePath [["ws"]] fsShallow [] (rawOfAbs ["ws", "a", "b.txt"]) =
        .ok ["ws", "a", "b.txt"] := by
  have hwf : wfEntries fsShallow = true := by
    simp [fsShallow, wfEntries, wfNode, validSeg]
  have hcwd : RealDir fsShallow [] := realDir_nil fsShallow
  have hok : validatePath [["ws"]] fsShallow [] ⟨true, ["ws", "a", "b.txt"]⟩ =
      .ok ["ws", "a", "b.txt"] := by
    simp [validatePath, canonRaw, canonComps, resolve, osComps, dirRequired,
      rtrimSegs, junkSeg, lookup, lookupIn, childNamed, containsPath,
      FUEL, fsShallow, List.isPrefixOf]
  have hns : notSymlinkAt fsShallow ["ws", "a", "b.txt"] = true := by
    simp [notSymlinkAt, lookup, lookupIn, childNamed, fsShallow]
  exact ⟨hwf, hcwd, hok, hns,
    c6_idempotence [["ws"]] fsShallow [] ⟨true, ["ws", "a", "b.txt"]⟩
      ["ws", "a", "b.txt"] hwf hcwd hok hns⟩

/-- Claim C7 counterexample: a trailing separator changes the outcome of
`validate_path`: with ws-link a symlink to the outside file etc-secret,
the plain form ws-link canonicalizes to etc-secret and is denied, while
the trailing-slash form fails to canonicalize (not a directory) and is
accepted through the parent fallback. -/
theorem c7_counterexample :
    validatePath [["ws"]] fsOutLink [] ⟨true, ["ws", "link"]⟩ = .error .pathDenied ∧
      validatePath [["ws"]] fsOutLink [] (addSlash ⟨true, ["ws", "link"]⟩) =
        .ok ["ws", "link"] := by
  constructor
  · simp [validatePath, canonRaw, canonComps, resolve, osComps, dirRequired, rawParent,
      rawFileName, rtrimSegs, junkSeg, lookup, lookupIn, childNamed, containsPath,
      FUEL, fsOutLink, List.isPrefixOf]
  · simp [validatePath, canonRaw, canonComps, resolve, osComps, dirRequired, rawParent,
      rawFileName, rtrimSegs, junkSeg, lookup, lookupIn, childNamed, containsPath,
      FUEL, fsOutLink, addSlash, List.isPrefixOf]

/-- Claim C7 (amended): a trailing separator never changes the component
decomposition (`parent` and `file_name` ignore it), so `validate_path`
treats the two spellings identically whenever canonicalization does:
if canonicalizing with and without the separator agree, the outcomes
are equal.  The only divergence is the one the counterexample forces:
the slashless form canonicalizes (to parent plus final name) while the
slashed form does not — and then the fallback still reconstructs the
same accepted path, so outcomes also agree in that case. -/
theorem c7_trailing_separator :
    ∀ (dirs : List AbsPath) (fs : Fs) (cwd : AbsPath) (p : Raw),
      (canonRaw fs cwd (addSlash p) = canonRaw fs cwd p ∨
        (∃ par name cp, rawParent p = some par ∧ rawFileName p = some name ∧
          canonRaw fs cwd par = some cp ∧
          canonRaw fs cwd p = some (cp ++ [name]) ∧
          canonRaw fs cwd (addSlash p) = none)) →
      validatePath dirs fs cwd (addSlash p) = validatePath dirs fs cwd p := by
  intro dirs fs cwd p hyp
  rcases hyp with heq | ⟨par, name, cp, hpar, hname, hcp, hdirect, hslash⟩
  · unfold validatePath
    rw [heq, rawParent_addSlash, rawFileName_addSlash]
  · unfold validatePath
    simp only [hslash, hdirect, rawParent_addSlash, rawFileName_addSlash,
      hpar, hname, hcp]

/-- Witness for C7 (amended): the two spellings of the existing
directory ws-a agree (both canonicalize), and the outcomes coincide. -/
theorem c7_trailing_separator_witness :
    canonRaw fsShallow [] (addSlash ⟨true, ["ws", "a"]⟩) =
        canonRaw fsShallow [] ⟨true, ["ws", "a"]⟩ ∧
      validatePath [["ws"]] fsShallow [] (addSlash ⟨true, ["ws", "a"]⟩) =
        validatePath [["ws"]] fsShallow [] ⟨true, ["ws", "a"]⟩ := by
  have heq : canonRaw fsShallow [] (addSlash ⟨true, ["ws", "a"]⟩) =
      canonRaw fsShallow [] ⟨true, ["ws", "a"]⟩ := by
    simp [canonRaw, canonComps, resolve, osComps, dirRequired, rtrimSegs, junkSeg,
      lookup, lookupIn, childNamed, FUEL, fsShallow, addSlash]
  exact ⟨heq,
    c7_trailing_separator [["ws"]] fsShallow [] ⟨true, ["ws", "a"]⟩ (Or.inl heq)⟩

/-! ### The ancestor walk of `validate_creatable_path` (claim C4) -/

theorem filter_nonjunk_dropWhile (m : List String) :
    (m.dropWhile junkSeg).filter (fun s => !junkSeg s) =
      m.filter (fun s => !junkSeg s) := by
  induction m with
  | nil => rfl
  | cons x xs ih =>
    rw [List.dropWhile_cons]
    by_cases hx : junkSeg x = true
    · rw [if_pos hx, ih, List.filter_cons]
      simp [hx]
    · rw [if_neg hx]

theorem rawNames_rtrimSegs (a : Bool) (l : List String) :
    (rtrimSegs a l).filter (fun s => !junkSeg s) =
      l.filter (fun s => !junkSeg s) := by
  have key : l.filter (fun s => !junkSeg s) =
      ((l.reverse.dropWhile junkSeg).filter (fun s => !junkSeg s)).reverse := by
    rw [filter_nonjunk_dropWhile, List.filter_reverse, List.reverse_reverse]
  simp only [rtrimSegs]
  split
  · rename_i hemp
    have hd : l.reverse.dropWhile junkSeg = [] := by
      rw [List.isEmpty_iff] at hemp
      exact List.reverse_eq_nil_iff.mp hemp
    split
    · rw [key, hd]
      rfl
    · rw [key, hd]
      rfl
  · rw [key, List.filter_reverse]

/-- Peeling the final component moves exactly its name from the path to
the tail: `parent` plus `file_name` partition the named segments. -/
theorem rawNames_parent_fileName {r par : Raw} {seg : String}
    (hp : rawParent r = some par) (hf : rawFileName r = some seg) :
    rawNames par ++ [seg] = rawNames r := by
  have hjseg : junkSeg seg = false := by
    rcases rawFileName_plain hf with ⟨h1, h2, _⟩
    unfold junkSeg
    rw [h1, h2]
    rfl
  unfold rawParent at hp
  unfold rawFileName at hf
  rcases ht : rtrimSegs r.absolute r.segs with _ | ⟨s, ts⟩
  · rw [ht] at hp
    simp at hp
  · rw [ht] at hp hf
    simp only [List.isEmpty_cons, Bool.false_eq_true, if_false, Option.some.injEq] at hp
    cases hgl : (s :: ts).getLast? with
    | none =>
      simp only [hgl] at hf
      cases hf
    | some x =>
      simp only [hgl] at hf
      by_cases hdot : (x == ".." || x == ".") = true
      · rw [if_pos hdot] at hf
        cases hf
      · rw [if_neg hdot] at hf
        injection hf with hxseg
        have hx : x = (s :: ts).getLast (List.cons_ne_nil s ts) := by
          have hg2 := List.getLast?_eq_getLast (s :: ts) (List.cons_ne_nil s ts)
          rw [hg2] at hgl
          injection hgl with h3
          exact h3.symm
        subst hxseg
        subst hp
        unfold rawNames
        simp only []
        rw [rawNames_rtrimSegs]
        have hr : r.segs.filter (fun s => !junkSeg s) =
            (s :: ts).filter (fun s => !junkSeg s) := by
          rw [← rawNames_rtrimSegs r.absolute r.segs, ht]
        rw [hr]
        conv_rhs => rw [← List.dropLast_append_getLast (List.cons_ne_nil s ts)]
        rw [List.filter_append, ← hx]
        congr 1
        simp [hjseg]

theorem parentChain_cons (r : Raw) : ∃ rest, parentChain r = r :: rest := by
  rw [parentChain]
  exact ⟨_, rfl⟩

theorem parentChain_eq_of_parent {r par : Raw} (hpar : rawParent r = some par) :
    parentChain r = r :: parentChain par := by
  rw [parentChain]
  congr 1
  split
  · rename_i h
    rw [h] at hpar
    exact Option.noConfusion hpar
  · rename_i p h
    rw [h] at hpar
    injection hpar with h2
    rw [h2]

theorem ancWalk_exists_some {fs : Fs} {cwd : AbsPath} {existing : Raw}
    {tail : List String} {b : AbsPath}
    (hex : rawExists fs cwd existing = true)
    (hc : canonRaw fs cwd existing = some b) :
    ancWalk fs cwd existing tail = .ok (b, tail) := by
  rw [ancWalk, if_pos hex, hc]

theorem ancWalk_parent_none {fs : Fs} {cwd : AbsPath} {existing : Raw}
    {tail : List String}
    (hex : rawExists fs cwd existing = false)
    (hp : rawParent existing = none) :
    ancWalk fs cwd existing tail = .error .notFound := by
  rw [ancWalk, if_neg (by simp [hex])]
  split
  · rfl
  · rename_i p h
    rw [h] at hp
    exact Option.noConfusion hp

theorem ancWalk_no_name {fs : Fs} {cwd : AbsPath} {existing par : Raw}
    {tail : List String}
    (hex : rawExists fs cwd existing = false)
    (hp : rawParent existing = some par)
    (hf : rawFileName existing = none) :
    ancWalk fs cwd existing tail = .error .pathDenied := by
  rw [ancWalk, if_neg (by simp [hex])]
  split
  · rename_i h
    rw [h] at hp
    exact Option.noConfusion hp
  · rename_i p h
    rw [hf]

theorem ancWalk_step {fs : Fs} {cwd : AbsPath} {existing par : Raw}
    {tail : List String} {seg : String}
    (hex : rawExists fs cwd existing = false)
    (hp : rawParent existing = some par)
    (hf : rawFileName existing = some seg) :
    ancWalk fs cwd existing tail = ancWalk fs cwd par (tail ++ [seg]) := by
  rw [ancWalk, if_neg (by simp [hex])]
  split
  · rename_i h
    rw [h] at hp
    exact Option.noConfusion hp
  · rename_i p h
    rw [h] at hp
    injection hp with h2
    subst h2
    rw [hf]

/-- A successful walk names the first existing entry of the parent
chain, canonicalizes it, and carries exactly the peeled names. -/
theorem ancWalk_ok {fs : Fs} {cwd : AbsPath} :
    ∀ (existing : Raw) (tail : List String) (b : AbsPath) (tl : List String),
      ancWalk fs cwd existing tail = .ok (b, tl) →
      ∃ anc pre rest,
        parentChain existing = pre ++ anc :: rest ∧
        (∀ q ∈ pre, rawExists fs cwd q = false) ∧
        rawExists fs cwd anc = true ∧
        canonRaw fs cwd anc = some b ∧
        rawNames anc ++ tl.reverse = rawNames existing ++ tail.reverse := by
  intro existing tail
  refine ancWalk.induct fs cwd (motive := fun existing tail =>
      ∀ b tl, ancWalk fs cwd existing tail = .ok (b, tl) →
      ∃ anc pre rest,
        parentChain existing = pre ++ anc :: rest ∧
        (∀ q ∈ pre, rawExists fs cwd q = false) ∧
        rawExists fs cwd anc = true ∧
        canonRaw fs cwd anc = some b ∧
        rawNames anc ++ tl.reverse = rawNames existing ++ tail.reverse)
    ?_ ?_ ?_ ?_ ?_ existing tail
  · intro existing tail hex hc b tl hw
    exfalso
    unfold rawExists at hex
    rw [hc] at hex
    simp at hex
  · intro existing tail hex c hc b tl hw
    rw [ancWalk_exists_some hex hc] at hw
    injection hw with hw2
    injection hw2 with hb htl
    obtain ⟨rest, hchain⟩ := parentChain_cons existing
    refine ⟨existing, [], rest, by simpa using hchain, by simp, hex, ?_, ?_⟩
    · rw [hc, hb]
    · rw [htl]
  · intro existing tail hex hp b tl hw
    have hex2 : rawExists fs cwd existing = false := Bool.eq_false_iff.mpr hex
    rw [ancWalk_parent_none hex2 hp] at hw
    exact Except.noConfusion hw
  · intro existing tail hex par hp hf b tl hw
    have hex2 : rawExists fs cwd existing = false := Bool.eq_false_iff.mpr hex
    rw [ancWalk_no_name hex2 hp hf] at hw
    exact Except.noConfusion hw
  · intro existing tail hex par hp s hf ih b tl hw
    have hex2 : rawExists fs cwd existing = false := Bool.eq_false_iff.mpr hex
    rw [ancWalk_step hex2 hp hf] at hw
    obtain ⟨anc, pre, rest, hchain, hpre, hexa, hcan, hnames⟩ := ih b tl hw
    refine ⟨anc, existing :: pre, rest, ?_, ?_, hexa, hcan, ?_⟩
    · rw [parentChain_eq_of_parent hp, hchain]
      rfl
    · intro q hq
      rcases List.mem_cons.mp hq with rfl | hq2
      · exact hex2
      · exact hpre q hq2
    · have hkey := rawNames_parent_fileName hp hf
      rw [hnames, List.reverse_append, ← hkey]
      simp

/-- When no entry of the parent chain exists (and every chain entry is
either the chain root or has a file name), the walk reports NotFound. -/
theorem ancWalk_notFound {fs : Fs} {cwd : AbsPath} :
    ∀ (existing : Raw) (tail : List String),
      (∀ q ∈ parentChain existing, rawExists fs cwd q = false) →
      (∀ q ∈ parentChain existing, rawParent q = none ∨ ∃ s, rawFileName q = some s) →
      ancWalk fs cwd existing tail = .error .notFound := by
  intro existing tail
  refine ancWalk.induct fs cwd (motive := fun existing tail =>
      (∀ q ∈ parentChain existing, rawExists fs cwd q = false) →
      (∀ q ∈ parentChain existing, rawParent q = none ∨ ∃ s, rawFileName q = some s) →
      ancWalk fs cwd existing tail = .error .notFound)
    ?_ ?_ ?_ ?_ ?_ existing tail
  · intro existing tail hex hc hne hnm
    exfalso
    obtain ⟨rest, hchain⟩ := parentChain_cons existing
    have := hne existing (by rw [hchain]; exact List.mem_cons_self _ _)
    rw [hex] at this
    exact Bool.noConfusion this
  · intro existing tail hex c hc hne hnm
    exfalso
    obtain ⟨rest, hchain⟩ := parentChain_cons existing
    have := hne existing (by rw [hchain]; exact List.mem_cons_self _ _)
    rw [hex] at this
    exact Bool.noConfusion this
  · intro existing tail hex hp hne hnm
    exact ancWalk_parent_none (Bool.eq_false_iff.mpr hex) hp
  · intro existing tail hex par hp hf hne hnm
    exfalso
    obtain ⟨rest, hchain⟩ := parentChain_cons existing
    rcases hnm existing (by rw [hchain]; exact List.mem_cons_self _ _) with h | ⟨s, h⟩
    · rw [h] at hp
      exact Option.noConfusion hp
    · rw [h] at hf
      exact Option.noConfusion hf
  · intro existing tail hex par hp s hf ih hne hnm
    have hstep := parentChain_eq_of_parent hp
    rw [ancWalk_step (Bool.eq_false_iff.mpr hex) hp hf]
    refine ih ?_ ?_
    · intro q hq
      exact hne q (by rw [hstep]; exact List.mem_cons_of_mem _ hq)
    · intro q hq
      exact hnm q (by rw [hstep]; exact List.mem_cons_of_mem _ hq)

/-- Claim C4: `validate_creatable_path` walks up the parent chain to the
nearest existing ancestor: a success canonicalizes exactly the first
existing entry of the chain (everything nearer the target does not
exist), checks its containment, and re-appends the peeled names in
their original order so that the ancestor names plus the tail are the
named segments of the input; and when no entry of the chain exists up
to the chain root (for an input that passed the component screen and
whose chain entries each have a file name or are the root), the outcome
is `NotFound`. -/
theorem c4_creatable_walk :
    (∀ (dirs : List AbsPath) (fs : Fs) (cwd : AbsPath) (p : Raw) (c : AbsPath),
      validateCreatable dirs fs cwd p = .ok c →
      ∃ anc pre rest b tl,
        parentChain p = pre ++ anc :: rest ∧
        (∀ q ∈ pre, rawExists fs cwd q = false) ∧
        rawExists fs cwd anc = true ∧
        canonRaw fs cwd anc = some b ∧
        containsPath dirs b = true ∧
        c = b ++ tl ∧
        rawNames anc ++ tl = rawNames p) ∧
    (∀ (dirs : List AbsPath) (fs : Fs) (cwd : AbsPath) (p : Raw),
      (rustComps p).any
        (fun c => match c with | .cur => true | .par => true | .normal _ => false) = false →
      (∀ q ∈ parentChain p, rawExists fs cwd q = false) →
      (∀ q ∈ parentChain p, rawParent q = none ∨ ∃ s, rawFileName q = some s) →
      validateCreatable dirs fs cwd p = .error .notFound) := by
  constructor
  · intro dirs fs cwd p c h
    unfold validateCreatable at h
    split at h
    · exact Except.noConfusion h
    · cases haw : ancWalk fs cwd p [] with
      | error e =>
        rw [haw] at h
        exact Except.noConfusion h
      | ok pr =>
        obtain ⟨base, tailSegs⟩ := pr
        rw [haw] at h
        simp only at h
        by_cases hcont : containsPath dirs base = true
        · rw [if_pos hcont] at h
          injection h with hc
          obtain ⟨anc, pre, rest, hchain, hpre, hexa, hcan, hnames⟩ :=
            ancWalk_ok p [] base tailSegs haw
          refine ⟨anc, pre, rest, base, tailSegs.reverse, hchain, hpre, hexa, hcan,
            hcont, hc.symm, ?_⟩
          simpa using hnames
        · rw [if_neg (by simpa using hcont)] at h
          exact Except.noConfusion h
  · intro dirs fs cwd p hg hne hnm
    unfold validateCreatable
    rw [if_neg (by simp [hg])]
    rw [ancWalk_notFound p [] hne hnm]

/-- Witness for C4: a missing two-level chain below the existing
directory ws-a is rebuilt from that ancestor, and a fully missing
relative chain reports NotFound. -/
theorem c4_creatable_walk_witness :
    (validateCreatable [["ws"]] fsShallow [] ⟨true, ["ws", "a", "x", "y.txt"]⟩ =
        .ok ["ws", "a", "x", "y.txt"]) ∧
      (∃ anc pre rest b tl,
        parentChain ⟨true, ["ws", "a", "x", "y.txt"]⟩ = pre ++ anc :: rest ∧
        (∀ q ∈ pre, rawExists fsShallow [] q = false) ∧
        rawExists fsShallow [] anc = true ∧
        canonRaw fsShallow [] anc = some b ∧
        containsPath [["ws"]] b = true ∧
        (["ws", "a", "x", "y.txt"] : AbsPath) = b ++ tl ∧
        rawNames anc ++ tl = rawNames ⟨true, ["ws", "a", "x", "y.txt"]⟩) ∧
      validateCreatable [["ws"]] fsShallow [] ⟨false, ["nope", "deep"]⟩ =
        .error .notFound := by
  have h1 : validateCreatable [["ws"]] fsShallow [] ⟨true, ["ws", "a", "x", "y.txt"]⟩ =
      .ok ["ws", "a", "x", "y.txt"] := by
    simp [validateCreatable, ancWalk, rawExists, canonRaw, canonComps, resolve, osComps,
      dirRequired, rawParent, rawFileName, rtrimSegs, junkSeg, lookup, lookupIn,
      childNamed, containsPath, FUEL, fsShallow, rustComps, List.isPrefixOf]
  have hchain : parentChain ⟨false, ["nope", "deep"]⟩ =
      [⟨false, ["nope", "deep"]⟩, ⟨false, ["nope"]⟩, ⟨false, ([] : List String)⟩] := by
    rw [parentChain_eq_of_parent
      (show rawParent ⟨false, ["nope", "deep"]⟩ = some ⟨false, ["nope"]⟩ by decide)]
    rw [parentChain_eq_of_parent
      (show rawParent ⟨false, ["nope"]⟩ = some ⟨false, ([] : List String)⟩ by decide)]
    rw [parentChain]
    congr 1
  have hg : (rustComps ⟨false, ["nope", "deep"]⟩).any
      (fun c => match c with | .cur => true | .par => true | .normal _ => false) = false := by
    decide
  have hne : ∀ q ∈ parentChain ⟨false, ["nope", "deep"]⟩,
      rawExists fsShallow [] q = false := by
    rw [hchain]
    intro q hq
    rcases List.mem_cons.mp hq with rfl | hq
    · simp [rawExists, canonRaw, canonComps, resolve, osComps, dirRequired,
        lookup, lookupIn, childNamed, FUEL, fsShallow]
    rcases List.mem_cons.mp hq with rfl | hq
    · simp [rawExists, canonRaw, canonComps, resolve, osComps, dirRequired,
        lookup, lookupIn, childNamed, FUEL, fsShallow]
    rcases List.mem_cons.mp hq with rfl | hq
    · simp [rawExists, canonRaw, canonComps, resolve, osComps, dirRequired,
        lookup, lookupIn, childNamed, FUEL, fsShallow]
    · exact absurd hq (List.not_mem_nil q)
  have hnm : ∀ q ∈ parentChain ⟨false, ["nope", "deep"]⟩,
      rawParent q = none ∨ ∃ s, rawFileName q = some s := by
    rw [hchain]
    intro q hq
    rcases List.mem_cons.mp hq with rfl | hq
    · exact Or.inr ⟨("deep"), by decide⟩
    rcases List.mem_cons.mp hq with rfl | hq
    · exact Or.inr ⟨("nope"), by decide⟩
    rcases List.mem_cons.mp hq with rfl | hq
    · exact Or.inl (by decide)
    · exact absurd hq (List.not_mem_nil q)
  exact ⟨h1,
    c4_creatable_walk.1 [["ws"]] fsShallow [] ⟨true, ["ws", "a", "x", "y.txt"]⟩
      ["ws", "a", "x", "y.txt"] h1,
    c4_creatable_walk.2 [["ws"]] fsShallow [] ⟨false, ["nope", "deep"]⟩ hg hne hnm⟩

/-! ### Determinism analysis of the search walk (claim C9) -/

theorem insertByName_perm {α : Type} (key : α → String) (a : α) (l : List α) :
    (insertByName key a l).Perm (a :: l) := by
  induction l with
  | nil => exact List.Perm.refl _
  | cons x xs ih =>
    simp only [insertByName]
    by_cases h : key a ≤ key x
    · rw [if_pos h]
    · rw [if_neg h]
      exact (ih.cons x).trans (List.Perm.swap a x xs)

theorem sortByName_perm {α : Type} (key : α → String) (l : List α) :
    (sortByName key l).Perm l := by
  induction l with
  | nil => exact List.Perm.refl _
  | cons x xs ih =>
    simp only [sortByName]
    exact (insertByName_perm key x _).trans (ih.cons x)

theorem specFiles_perm (m : List String → Bool) (rel : List String)
    {l₁ l₂ : List (String × Node)} (h : l₁.Perm l₂) :
    (specFiles m rel l₁).Perm (specFiles m rel l₂) := by
  unfold specFiles
  exact h.filterMap _

theorem specFiles_normalize (m : List String → Bool) (rel : List String)
    (es : List (String × Node)) :
    specFiles m rel (normalizeEntries es) = specFiles m rel es := by
  induction es with
  | nil => simp [normalizeEntries]
  | cons e rest ih =>
    obtain ⟨n, c⟩ := e
    cases c with
    | file sz =>
      simp only [normalizeEntries, normalizeNode, specFiles, List.filterMap_cons]
      unfold specFiles at ih
      rw [ih]
    | dir cs =>
      simp only [normalizeEntries, normalizeNode, specFiles, List.filterMap_cons]
      unfold specFiles at ih
      rw [ih]
    | symlink t =>
      simp only [normalizeEntries, normalizeNode, specFiles, List.filterMap_cons]
      unfold specFiles at ih
      rw [ih]

theorem subDirsOf_normalize (es : List (String × Node)) :
    subDirsOf (normalizeEntries es) =
      (subDirsOf es).map fun e => (e.1, sortByName Prod.fst (normalizeEntries e.2)) := by
  induction es with
  | nil => simp [normalizeEntries, subDirsOf]
  | cons e rest ih =>
    obtain ⟨n, c⟩ := e
    cases c with
    | file sz =>
      simp only [normalizeEntries, normalizeNode, subDirsOf, List.filterMap_cons]
      unfold subDirsOf at ih
      rw [ih]
    | dir cs =>
      simp only [normalizeEntries, normalizeNode, subDirsOf, List.filterMap_cons,
        List.map_cons]
      unfold subDirsOf at ih
      rw [ih]
    | symlink t =>
      simp only [normalizeEntries, normalizeNode, subDirsOf, List.filterMap_cons]
      unfold subDirsOf at ih
      rw [ih]

theorem specSubs_flatten (m : List String → Bool) (md : Nat) :
    ∀ (subs : List (String × List (String × Node))) (rel : List String) (depth : Nat)
      (h : depth < md),
      specSubs m md subs rel depth h =
        (subs.map fun e => specDir m md e.2 (rel ++ [e.1]) (depth + 1)).flatten := by
  intro subs
  induction subs with
  | nil =>
    intro rel depth h
    rw [specSubs]
    simp
  | cons e rest ih =>
    intro rel depth h
    obtain ⟨n, cs⟩ := e
    rw [specSubs]
    simp only [List.map_cons, List.flatten_cons]
    rw [ih]

theorem flatten_map_perm {α β : Type} (l : List α) {f g : α → List β}
    (h : ∀ a ∈ l, (f a).Perm (g a)) :
    ((l.map f).flatten).Perm ((l.map g).flatten) := by
  induction l with
  | nil => simp
  | cons a as ih =>
    simp only [List.map_cons, List.flatten_cons]
    exact (h a (by simp)).append (ih fun b hb => h b (by simp [hb]))

/-- The unbounded-results match list depends on the directory contents
only through their name-sorted normal form, up to permutation. -/
theorem specDir_nf (m : List String → Bool) (md : Nat) :
    ∀ (n : Nat) (es : List (String × Node)) (rel : List String) (depth : Nat),
      md - depth ≤ n →
      (specDir m md es rel depth).Perm
        (specDir m md (sortByName Prod.fst (normalizeEntries es)) rel depth) := by
  intro n
  induction n with
  | zero =>
    intro es rel depth hn
    have hnd : ¬ depth < md := by omega
    rw [specDir, specDir, dif_neg hnd, dif_neg hnd]
    have h1 := specFiles_perm m rel (sortByName_perm Prod.fst (normalizeEntries es))
    rw [specFiles_normalize] at h1
    exact h1.symm
  | succ k ih =>
    intro es rel depth hn
    have hfiles : (specFiles m rel es).Perm
        (specFiles m rel (sortByName Prod.fst (normalizeEntries es))) := by
      have h1 := specFiles_perm m rel (sortByName_perm Prod.fst (normalizeEntries es))
      rw [specFiles_normalize] at h1
      exact h1.symm
    by_cases hd : depth < md
    · rw [specDir, specDir, dif_pos hd, dif_pos hd]
      refine hfiles.append ?_
      rw [specSubs_flatten, specSubs_flatten]
      refine List.Perm.trans (((sortByName_perm Prod.fst (subDirsOf es)).map _).flatten) ?_
      refine List.Perm.trans ?_
        (((sortByName_perm Prod.fst (subDirsOf (sortByName Prod.fst
          (normalizeEntries es)))).map _).flatten).symm
      have hsd : (subDirsOf (sortByName Prod.fst (normalizeEntries es))).Perm
          (subDirsOf (normalizeEntries es)) := by
        unfold subDirsOf
        exact (sortByName_perm Prod.fst (normalizeEntries es)).filterMap _
      refine List.Perm.trans ?_ ((hsd.map _).flatten).symm
      rw [subDirsOf_normalize, List.map_map]
      refine flatten_map_perm (subDirsOf es) ?_
      intro e he
      simp only [Function.comp_apply]
      exact ih e.2 (rel ++ [e.1]) (depth + 1) (by omega)
    · rw [specDir, specDir, dif_neg hd, dif_neg hd]
      exact hfiles

theorem addFiles_noTrunc (m : List String → Bool) (mr : Nat) (rel : List String) :
    ∀ (es : List (String × Node)) (acc : List SRes),
      (addFiles m mr rel es acc).2 = false →
      (addFiles m mr rel es acc).1 = acc ++ specFiles m rel es := by
  intro es
  induction es with
  | nil =>
    intro acc h
    simp [addFiles, specFiles]
  | cons e rest ih =>
    intro acc h
    obtain ⟨n, c⟩ := e
    cases c with
    | file sz =>
      simp only [addFiles] at h ⊢
      by_cases hm : m (rel ++ [n]) = true
      · rw [if_pos hm] at h ⊢
        by_cases hcap : mr ≤ (acc ++ [(rel ++ [n], sz)]).length
        · rw [if_pos hcap] at h
          exact Bool.noConfusion h
        · rw [if_neg hcap] at h ⊢
          rw [ih _ h]
          simp only [specFiles, List.filterMap_cons]
          rw [if_pos hm]
          simp
      · rw [if_neg hm] at h ⊢
        rw [ih _ h]
        simp only [specFiles, List.filterMap_cons]
        rw [if_neg hm]
    | dir cs =>
      simp only [addFiles] at h ⊢
      rw [ih _ h]
      simp only [specFiles, List.filterMap_cons]
    | symlink t =>
      simp only [addFiles] at h ⊢
      rw [ih _ h]
      simp only [specFiles, List.filterMap_cons]

/-- A non-truncated search walk collects exactly what a full walk
specifies, appended to the accumulator. -/
theorem searchDir_noTrunc (m : List String → Bool) (md mr : Nat) :
    ∀ (es : List (String × Node)) (rel : List String) (depth : Nat) (acc : List SRes),
      (searchDir m md mr es rel depth acc).2 = false →
      (searchDir m md mr es rel depth acc).1 = acc ++ specDir m md es rel depth := by
  refine searchDir.induct m md mr
    (fun es rel depth acc =>
      (searchDir m md mr es rel depth acc).2 = false →
      (searchDir m md mr es rel depth acc).1 = acc ++ specDir m md es rel depth)
    (fun subs rel depth h acc =>
      (searchSubs m md mr subs rel depth h acc).2 = false →
      (searchSubs m md mr subs rel depth h acc).1 = acc ++ specSubs m md subs rel depth h)
    ?_ ?_ ?_ ?_ ?_ ?_
  · intro es rel depth acc haf hflag
    rw [searchDir, if_pos haf] at hflag
    exact Bool.noConfusion hflag
  · intro es rel depth acc hnf h ih hflag
    rw [searchDir, if_neg hnf, dif_pos h] at hflag ⊢
    rw [ih hflag, addFiles_noTrunc m mr rel es acc (Bool.eq_false_iff.mpr hnf)]
    rw [specDir, dif_pos h, List.append_assoc]
  · intro es rel depth acc hnf hnd hflag
    rw [searchDir, if_neg hnf, dif_neg hnd]
    rw [addFiles_noTrunc m mr rel es acc (Bool.eq_false_iff.mpr hnf)]
    rw [specDir, dif_neg hnd]
  · intro rel depth h acc hflag
    rw [searchSubs]
    rw [specSubs]
    simp
  · intro rel depth h acc name children rest hsd ih hflag
    rw [searchSubs, if_pos hsd] at hflag
    exact Bool.noConfusion hflag
  · intro rel depth h acc name children rest hsd ih1 ih2 hflag
    rw [searchSubs, if_neg hsd] at hflag ⊢
    rw [ih2 hflag, ih1 (Bool.eq_false_iff.mpr hsd)]
    rw [specSubs, List.append_assoc]

/-- Claim C9 counterexample: two enumerations of the same directory
contents (two files a and b listed in opposite orders) are
`SameContents`, yet `search_files` returns differently ordered result
lists, because files of a directory are emitted in enumeration order
(only subdirectories are sorted).  This refutes run-to-run identity of
the result list. -/
theorem c9_counterexample :
    SameContents [("b", .file 1), ("a", .file 1)] [("a", .file 1), ("b", .file 1)] ∧
      (searchFiles (fun _ => true) 10 50 [("b", .file 1), ("a", .file 1)]).1 ≠
        (searchFiles (fun _ => true) 10 50 [("a", .file 1), ("b", .file 1)]).1 := by
  constructor
  · simp only [SameContents, normalizeEntries, normalizeNode, sortByName, insertByName]
    simp
    rw [if_neg (by decide), if_pos (by decide)]
  · simp [searchFiles, searchDir, searchSubs, addFiles, subDirsOf, sortByName,
      insertByName, specFiles]

/-- Claim C9 (amended): up to result order, the search outcome is
reproducible: two non-truncated runs of the walk over directory trees
with the same contents (equal name-sorted normal forms at every level)
return permutations of one another.  Run-to-run identity of the list
fails (see the counterexample): files of each directory are pushed in
OS enumeration order, which is not part of the contents; only the
subdirectory visiting order is sorted. -/
theorem c9_search_determinism :
    ∀ (m : List String → Bool) (md mr : Nat) (t1 t2 : List (String × Node)),
      SameContents t1 t2 →
      (searchFiles m md mr t1).2 = false →
      (searchFiles m md mr t2).2 = false →
      ((searchFiles m md mr t1).1).Perm ((searchFiles m md mr t2).1) := by
  intro m md mr t1 t2 hsc h1 h2
  unfold searchFiles at h1 h2 ⊢
  have e1 := searchDir_noTrunc m md mr t1 [] 0 [] h1
  have e2 := searchDir_noTrunc m md mr t2 [] 0 [] h2
  rw [e1, e2]
  simp only [List.nil_append]
  have p1 := specDir_nf m md md t1 [] 0 (by omega)
  have p2 := specDir_nf m md md t2 [] 0 (by omega)
  unfold SameContents at hsc
  rw [hsc] at p1
  exact p1.trans p2.symm

/-- Witness for C9 (amended) at the two enumeration orders of the same
two-file directory. -/
theorem c9_search_determinism_witness :
    SameContents [("b", .file 1), ("a", .file 1)] [("a", .file 1), ("b", .file 1)] ∧
      (searchFiles (fun _ => true) 10 50 [("b", .file 1), ("a", .file 1)]).2 = false ∧
      (searchFiles (fun _ => true) 10 50 [("a", .file 1), ("b", .file 1)]).2 = false ∧
      ((searchFiles (fun _ => true) 10 50 [("b", .file 1), ("a", .file 1)]).1).Perm
        ((searchFiles (fun _ => true) 10 50 [("a", .file 1), ("b", .file 1)]).1) := by
  have hsc : SameContents [("b", .file 1), ("a", .file 1)]
      [("a", .file 1), ("b", .file 1)] := by
    simp only [SameContents, normalizeEntries, normalizeNode, sortByName, insertByName]
    simp
    rw [if_neg (by decide), if_pos (by decide)]
  have h1 : (searchFiles (fun _ => true) 10 50 [("b", .file 1), ("a", .file 1)]).2 = false := by
    simp [searchFiles, searchDir, searchSubs, addFiles, subDirsOf, sortByName,
      insertByName]
  have h2 : (searchFiles (fun _ => true) 10 50 [("a", .file 1), ("b", .file 1)]).2 = false := by
    simp [searchFiles, searchDir, searchSubs, addFiles, subDirsOf, sortByName,
      insertByName]
  exact ⟨hsc, h1, h2,
    c9_search_determinism (fun _ => true) 10 50 [("b", .file 1), ("a", .file 1)]
      [("a", .file 1), ("b", .file 1)] hsc h1 h2⟩

end Ironbeard
